import Mathlib

/-!
Verification development for the verification-key phase of the Nym DKG
(`validator-api/src/coconut/dkg/verification_key.rs`).

The Rust code is shallowly embedded: pure control flow is translated
directly; the external collaborators (the ledger client, the state module,
the cryptographic primitives) are modelled either as explicit function
records quantified over in the theorems, or — where the specification
fixes their behaviour — as definitions whose doc comment starts
`Modelled from the spec:`.
-/

namespace NymDkg

/-- `NodeIndex` from `coconut_dkg_common::types`: a participant index. -/
abbrev NodeIndex := Nat

/-- `cosmwasm_std::Addr`: an opaque account identifier, modelled as `Nat`. -/
abbrev Addr := Nat

/-- Raw dealing bytes posted on the ledger (`ContractSafeBytes`), modelled
as an opaque code. -/
abbrev Bytes := Nat

/-- `dkg::Dealing`: the parsed form of a dealing.  Only the `ciphertexts`
field is inspected by the embedded code (`decrypt_share` receives it); the
`body` field keeps distinct dealings distinguishable. -/
structure Dealing where
  ciphertexts : Nat
  body : Nat
deriving DecidableEq, Repr

/-- One entry returned by `get_dealings`: a dealer address together with
the raw bytes it posted. -/
structure ContractDealing where
  dealer : Addr
  dealing : Bytes
deriving DecidableEq, Repr

/-- `ComplaintReason` from `coconut/dkg/complaints.rs` (not under `src/`;
the three variants are fixed by the spec's error-kind list). -/
inductive ComplaintReason where
  | MalformedDealing
  | DealingVerificationError
  | MissingDealing
deriving DecidableEq, Repr

/-- Scalars produced by share decryption and combination, modelled opaquely. -/
abbrev Scalar := Nat

/-- Coconut `Parameters`, modelled opaquely. -/
abbrev Params := Nat

/-- Coconut `VerificationKey`, modelled opaquely. -/
abbrev VerificationKey := Nat

/-- Coconut `SecretKey`: per the spec, a top-level `x` plus per-attribute
`ys` (`SecretKey::create_from_raw(x, scalars)`). -/
structure SecretKey where
  x : Scalar
  ys : List Scalar
deriving DecidableEq, Repr

/-- Coconut `KeyPair` (`CoconutKeyPair::from_keys(sk, vk)`). -/
structure KeyPair where
  sk : SecretKey
  vk : VerificationKey
deriving DecidableEq, Repr

/-- `RecoveredVerificationKeys` for one polynomial: the embedded code only
reads `recovered_partials`, one partial per surviving receiver. -/
structure RecoveredVK where
  recovered_partials : List Nat
deriving DecidableEq, Repr

/-- The error kinds of `CoconutError` that the embedded functions can
produce, named after the spec's §7 error list. -/
inductive CoconutError where
  | ThresholdUnavailable
  | DkgError
  | ParamsError
  | KeyPairIoError
  | LedgerError
  | ProposalIdNotFound
  | ProposalIdNotParsable
  | StateError
deriving DecidableEq, Repr

/-- Outcome of running a piece of Rust code that may panic (`unwrap`),
return an error, or succeed. -/
inductive RunResult (α : Type) where
  | panic
  | error (e : CoconutError)
  | ok (a : α)
deriving DecidableEq, Repr

/-! ### A model of `std::collections::BTreeMap` with `Nat` keys

Represented as an association list with strictly increasing keys;
`btInsert` keeps the order and replaces on an existing key, so
`btFromList` has the `BTreeMap::from_iter` last-wins semantics and the
resulting list is the sorted iteration order. -/

def btInsert {α : Type} (k : Nat) (v : α) : List (Nat × α) → List (Nat × α)
  | [] => [(k, v)]
  | (k', v') :: rest =>
    if k < k' then (k, v) :: (k', v') :: rest
    else if k = k' then (k, v) :: rest
    else (k', v') :: btInsert k v rest

def btFromList {α : Type} (l : List (Nat × α)) : List (Nat × α) :=
  l.foldl (fun m kv => btInsert kv.1 kv.2 m) []

def btLookup {α : Type} (k : Nat) (l : List (Nat × α)) : Option α :=
  (l.find? (fun kv => kv.1 == k)).map (·.2)

/-! ### The shared per-epoch state

`coconut/dkg/state.rs` is not under `src/`; the state is modelled from the
spec's §3 table, and its accessors from their uses in
`verification_key.rs` plus the spec's descriptions. -/

/-- One registered dealer: address, node index and BTE public key
(the latter opaque). -/
structure DealerEntry where
  addr : Addr
  index : NodeIndex
  btePk : Nat
deriving DecidableEq, Repr

/-- Modelled from the spec: the `State` of §3.  `dealers` is the
`all_dealers` map: each registered dealer paired with `none` (good) or
`some reason` (bad, with its complaint reason). -/
structure State where
  dealers : List (DealerEntry × Option ComplaintReason)
  recovered_vks : List RecoveredVK
  coconut_keypair : Option KeyPair
  proposal_id : Option Nat
  voted_vks : Bool
  executed_proposal : Bool
  receiver_index : Option NodeIndex
  threshold_value : Option Nat
  dkg_sk : Nat
deriving DecidableEq, Repr

/-- Modelled from the spec: `State::current_dealers_by_addr`, the map
`DealerAddress → NodeIndex` of dealers that carry no complaint
("Recompute `filtered_dealers_by_addr` from `state` (reflecting all
complaints)"). -/
def State.current_dealers_by_addr (s : State) : List (Addr × NodeIndex) :=
  btFromList ((s.dealers.filter (fun e => e.2.isNone)).map (fun e => (e.1.addr, e.1.index)))

/-- Modelled from the spec: `State::current_dealers_by_idx`, the map
`NodeIndex → BTE public key` of dealers that carry no complaint. -/
def State.current_dealers_by_idx (s : State) : List (NodeIndex × Nat) :=
  btFromList ((s.dealers.filter (fun e => e.2.isNone)).map (fun e => (e.1.index, e.1.btePk)))

/-- Modelled from the spec: `State::mark_bad_dealer` records a complaint
reason for a registered dealer, replacing any earlier reason — the spec's
§4.1 requires that "the complaint is upgraded from `MissingDealing` to the
specific reason on the second pass", and the tests observe both
directions of overwriting.  Unregistered addresses are ignored. -/
def State.mark_bad_dealer (s : State) (addr : Addr) (r : ComplaintReason) : State :=
  { s with
    dealers := s.dealers.map (fun e => if e.1.addr = addr then (e.1, some r) else e) }

/-- The complaint status of `addr`: `none` when unregistered, `some st`
when registered with status `st` (read through `State::all_dealers`). -/
def dealerStatus (s : State) (addr : Addr) : Option (Option ComplaintReason) :=
  (s.dealers.find? (fun e => e.1.addr == addr)).map (·.2)

/-! ### Protocol constants

Modelled from the spec: `PUBLIC_ATTRIBUTES`, `PRIVATE_ATTRIBUTES` and
`TOTAL_DEALINGS = PUBLIC_ATTRIBUTES + PRIVATE_ATTRIBUTES + 1` live in
crates not under `src/`; the bandwidth credential has two public and two
private attributes. -/

def PUBLIC_ATTRIBUTES : Nat := 2

def PRIVATE_ATTRIBUTES : Nat := 2

def TOTAL_DEALINGS : Nat := PUBLIC_ATTRIBUTES + PRIVATE_ATTRIBUTES + 1

/-! ### The dealer filter (`deterministic_filter_dealers`) -/

/-- The cryptographic primitives used by the filter: `Dealing::try_from`
on raw bytes, and `Dealing::verify(params, threshold, receivers, None)`
(the `params` come from the fixed `setup()`, so they are folded into the
function). -/
structure DkgPrimitives where
  tryFromBytes : Bytes → Option Dealing
  verifyDealing : Dealing → Nat → List (NodeIndex × Nat) → Bool

/-- One per-polynomial map of surviving dealings, keyed by dealer
`NodeIndex` (a `BTreeMap` in sorted association-list form). -/
abbrev DealingsMap := List (NodeIndex × Addr × Dealing)

/-- Ledger effects recorded by the embedded stage functions. -/
inductive Effect where
  | readDealings (idx : Nat)
  | persistKeypair
  | submitShare (vk : Nat)
  | readShares
  | readProposals
  | vote (pid : Nat) (approve : Bool)
  | executeProposal (pid : Nat)
deriving DecidableEq, Repr

/-- The body of the `filter_map` closure inside `deterministic_filter_dealers`
(lines 37–65): parse the bytes, verify, check registration; marks bad
dealers on the state and optionally yields a keyed entry. -/
def processContractDealing (prim : DkgPrimitives) (threshold : Nat)
    (initialReceivers : List (NodeIndex × Nat)) (initialDealers : List (Addr × NodeIndex))
    (acc : State × List (NodeIndex × Addr × Dealing)) (cd : ContractDealing) :
    State × List (NodeIndex × Addr × Dealing) :=
  match prim.tryFromBytes cd.dealing with
  | some dealing =>
    if !(prim.verifyDealing dealing threshold initialReceivers) then
      (acc.1.mark_bad_dealer cd.dealer ComplaintReason.DealingVerificationError, acc.2)
    else
      match btLookup cd.dealer initialDealers with
      | some idx => (acc.1, acc.2 ++ [(idx, cd.dealer, dealing)])
      | none => acc
  | none =>
    (acc.1.mark_bad_dealer cd.dealer ComplaintReason.MalformedDealing, acc.2)

/-- The `for idx in 0..TOTAL_DEALINGS` loop of the filter: fetch the
dealings for each polynomial index in turn, build the keyed map, record
read effects; a ledger error aborts with the state mutations so far. -/
def filterLoop (prim : DkgPrimitives)
    (getDealings : Nat → Except Unit (List ContractDealing)) (threshold : Nat)
    (initialReceivers : List (NodeIndex × Nat)) (initialDealers : List (Addr × NodeIndex)) :
    List Nat → State → List Effect → List DealingsMap →
    State × List Effect × Except Unit (List DealingsMap)
  | [], st, effs, maps => (st, effs, Except.ok maps)
  | idx :: rest, st, effs, maps =>
    match getDealings idx with
    | Except.error _ => (st, effs ++ [Effect.readDealings idx], Except.error ())
    | Except.ok dealings =>
      let step := dealings.foldl
        (processContractDealing prim threshold initialReceivers initialDealers) (st, [])
      filterLoop prim getDealings threshold initialReceivers initialDealers rest
        step.1 (effs ++ [Effect.readDealings idx]) (maps ++ [btFromList step.2])

/-- The cross-polynomial completeness pass (lines 68–75): for every
initially-registered dealer, if some map has no entry carrying its
address, mark it `MissingDealing` (once — the inner loop breaks). -/
def completenessPass (initialDealers : List (Addr × NodeIndex))
    (maps : List DealingsMap) (st : State) : State :=
  initialDealers.foldl
    (fun s ad =>
      if maps.any (fun m => !(m.any (fun e => e.2.1 == ad.1))) then
        s.mark_bad_dealer ad.1 ComplaintReason.MissingDealing
      else s)
    st

/-- `deterministic_filter_dealers` (lines 24–78): capture the initial
dealer maps, build one `DealingsMap` per polynomial index, then run the
completeness pass.  Returns the mutated state, the ledger effects, and
the maps (or a propagated ledger error). -/
def deterministic_filter_dealers (prim : DkgPrimitives)
    (getDealings : Nat → Except Unit (List ContractDealing))
    (state : State) (threshold : Nat) :
    State × List Effect × Except Unit (List DealingsMap) :=
  let initialDealers := state.current_dealers_by_addr
  let initialReceivers := state.current_dealers_by_idx
  match filterLoop prim getDealings threshold initialReceivers initialDealers
      (List.range TOTAL_DEALINGS) state [] [] with
  | (st, effs, Except.error e) => (st, effs, Except.error e)
  | (st, effs, Except.ok maps) =>
    (completenessPass initialDealers maps st, effs, Except.ok maps)

/-! ### Partial keypair derivation (`derive_partial_keypair`) -/

/-- The cryptographic and encoding primitives consumed by derivation,
submission and validation, quantified over in the theorems.
`recoverInner` is the part of `try_recover_verification_keys` beyond its
threshold gate; `verificationKeyOf` is `sk.verification_key(&params)`;
`toBs58`/`tryFromBs58` are the base58 codec (payloads modelled as `Nat`);
`checkVkPairing` is `check_vk_pairing(params, partials, vk)`. -/
structure CoconutPrimitives where
  recoverInner : List Dealing → Nat → List (NodeIndex × Nat) → Except CoconutError RecoveredVK
  decryptShare : Nat → NodeIndex → Nat → Except CoconutError Scalar
  combineShares : List Scalar → List NodeIndex → Except CoconutError Scalar
  paramsNew : Nat → Except CoconutError Params
  verificationKeyOf : SecretKey → Params → VerificationKey
  toBs58 : VerificationKey → Nat
  tryFromBs58 : Nat → Option VerificationKey
  checkVkPairing : Params → List Nat → VerificationKey → Bool

/-- Modelled from the spec: `dkg::try_recover_verification_keys` (the dkg
crate is not under `src/`).  Per §7, recovery with fewer than `threshold`
dealings fails fatally with `ThresholdUnavailable`; beyond that gate its
behaviour is the opaque `recoverInner`. -/
def try_recover_verification_keys (prim : CoconutPrimitives) (dealings : List Dealing)
    (threshold : Nat) (receivers : List (NodeIndex × Nat)) : Except CoconutError RecoveredVK :=
  if dealings.length < threshold then Except.error CoconutError.ThresholdUnavailable
  else prim.recoverInner dealings threshold receivers

/-- The `for dealings_map in dealings_maps` loop of `derive_partial_keypair`
(lines 91–121): keep the dealings of still-surviving dealers, recover the
verification keys, decrypt our share from each dealing, and combine the
shares into one scalar per polynomial, in input order. -/
def deriveLoop (prim : CoconutPrimitives) (threshold : Nat)
    (receivers : List (NodeIndex × Nat)) (dealers : List (Addr × NodeIndex))
    (dk nodeIdx : Nat) :
    List DealingsMap → List Scalar → List RecoveredVK →
    Except CoconutError (List Scalar × List RecoveredVK)
  | [], scalars, vks => Except.ok (scalars, vks)
  | m :: rest, scalars, vks =>
    let filtered_dealings := m.filterMap
      (fun e => if dealers.any (fun a => e.2.1 == a.1) then some e.2.2 else none)
    match try_recover_verification_keys prim filtered_dealings threshold receivers with
    | Except.error e => Except.error e
    | Except.ok recovered =>
      match filtered_dealings.mapM (fun d => prim.decryptShare dk nodeIdx d.ciphertexts) with
      | Except.error e => Except.error e
      | Except.ok shares =>
        match prim.combineShares shares (receivers.map (·.1)) with
        | Except.error e => Except.error e
        | Except.ok scalar =>
          deriveLoop prim threshold receivers dealers dk nodeIdx rest
            (scalars ++ [scalar]) (vks ++ [recovered])

/-- `derive_partial_keypair` (lines 80–130).  On success the recovered
verification keys are stored in the state, the **last** combined scalar is
popped (`scalars.pop().unwrap()`, a panic on an empty vector) to become
the top-level `x`, and the remaining scalars, in order, become the `ys` of
`SecretKey::create_from_raw`.  Returns the (possibly mutated) state and
the outcome. -/
def derive_partial_keypair (prim : CoconutPrimitives) (state : State) (threshold : Nat)
    (dealings_maps : List DealingsMap) : State × RunResult KeyPair :=
  let receivers := state.current_dealers_by_idx
  let dealers := state.current_dealers_by_addr
  let dk := state.dkg_sk
  match state.receiver_index with
  | none => (state, RunResult.error CoconutError.StateError)
  | some nodeIdx =>
    match deriveLoop prim threshold receivers dealers dk nodeIdx dealings_maps [] [] with
    | Except.error e => (state, RunResult.error e)
    | Except.ok (scalars, vks) =>
      let state' := { state with recovered_vks := vks }
      match prim.paramsNew (PUBLIC_ATTRIBUTES + PRIVATE_ATTRIBUTES) with
      | Except.error e => (state', RunResult.error e)
      | Except.ok params =>
        match scalars.getLast? with
        | none => (state', RunResult.panic)
        | some x =>
          let sk : SecretKey := ⟨x, scalars.dropLast⟩
          (state', RunResult.ok ⟨sk, prim.verificationKeyOf sk params⟩)

/-! ### Verification-key submission (`verification_key_submission`) -/

/-- A transaction-log entry, flattened to (event type, attribute key,
attribute value). -/
abbrev LogEntry := String × String × String

/-- Modelled from the spec: the `DKG_PROPOSAL_ID` event-attribute key
(`coconut_dkg_common::event_attributes`, not under `src/`). -/
def DKG_PROPOSAL_ID : String := "proposal_id"

/-- Modelled from the spec:
`find_attribute(logs, "wasm", DKG_PROPOSAL_ID) → string` from
`validator_client` (not under `src/`) returns the first attribute value
whose event type and key match. -/
def find_attribute (logs : List LogEntry) (eventType key : String) : Option String :=
  (logs.find? (fun l => l.1 == eventType && l.2.1 == key)).map (·.2.2)

/-- Model of Rust's `str::parse::<u64>`: a decimal number that fits in 64
bits. -/
def parseU64 (s : String) : Option Nat :=
  match s.toNat? with
  | some n => if n < 2 ^ 64 then some n else none
  | none => none

/-- The ledger operations consumed by `verification_key_submission`:
`get_dealings`, the keypair store, and `submit_verification_key_share`
(returning the logs of its transaction response). -/
structure SubmissionClient where
  getDealings : Nat → Except Unit (List ContractDealing)
  storeResult : Except Unit Unit
  submitResult : Nat → Except Unit (List LogEntry)

/-- `verification_key_submission` (lines 132–161): short-circuit when the
coconut keypair is already set; otherwise filter, derive, persist the
keypair, submit the base58 share, extract the `DKG_PROPOSAL_ID` attribute
from the "wasm" log and parse it as `u64`; only then set
`state.proposal_id` and the in-memory keypair. -/
def verification_key_submission (fprim : DkgPrimitives) (prim : CoconutPrimitives)
    (client : SubmissionClient) (state : State) : State × List Effect × RunResult Unit :=
  if state.coconut_keypair.isSome then (state, [], RunResult.ok ())
  else
    match state.threshold_value with
    | none => (state, [], RunResult.error CoconutError.StateError)
    | some threshold =>
      match deterministic_filter_dealers fprim client.getDealings state threshold with
      | (st, effs, Except.error _) => (st, effs, RunResult.error CoconutError.LedgerError)
      | (st, effs, Except.ok maps) =>
        match derive_partial_keypair prim st threshold maps with
        | (st2, RunResult.panic) => (st2, effs, RunResult.panic)
        | (st2, RunResult.error e) => (st2, effs, RunResult.error e)
        | (st2, RunResult.ok kp) =>
          let vk_share := prim.toBs58 kp.vk
          match client.storeResult with
          | Except.error _ =>
            (st2, effs ++ [Effect.persistKeypair], RunResult.error CoconutError.KeyPairIoError)
          | Except.ok _ =>
            match client.submitResult vk_share with
            | Except.error _ =>
              (st2, effs ++ [Effect.persistKeypair, Effect.submitShare vk_share],
               RunResult.error CoconutError.LedgerError)
            | Except.ok logs =>
              let effs2 := effs ++ [Effect.persistKeypair, Effect.submitShare vk_share]
              match find_attribute logs "wasm" DKG_PROPOSAL_ID with
              | none => (st2, effs2, RunResult.error CoconutError.ProposalIdNotFound)
              | some value =>
                match parseU64 value with
                | none => (st2, effs2, RunResult.error CoconutError.ProposalIdNotParsable)
                | some pid =>
                  ({ st2 with proposal_id := some pid, coconut_keypair := some kp },
                   effs2, RunResult.ok ())

/-! ### Peer validation (`verification_key_validation`) -/

/-- A `ContractVKShare` entry fetched from the ledger; the base58 `share`
payload is modelled as an opaque `Nat`. -/
structure ContractVKShare where
  owner : Addr
  node_index : NodeIndex
  share : Nat
deriving DecidableEq, Repr

/-- `cw3::Status` of a governance proposal. -/
inductive Status where
  | Pending
  | Open
  | Rejected
  | Passed
  | Executed
deriving DecidableEq, Repr

/-- A `cw3::ProposalResponse`.  `ownerMsg` is, modelled from the spec, the
result of `owner_from_cosmos_msgs(&proposal.msgs)` ("protocol-specific
encoding; treat as given"). -/
structure ProposalResponse where
  id : Nat
  status : Status
  ownerMsg : Option Addr
deriving DecidableEq, Repr

/-- `validate_proposal` (lines 163–170): an `Open` proposal with an
extractable owner yields `(owner, id)`. -/
def validate_proposal (p : ProposalResponse) : Option (Addr × Nat) :=
  if p.status = Status.Open then p.ownerMsg.map (fun o => (o, p.id)) else none

/-- Modelled from the spec: `transpose_matrix` from
`nymcoconut::tests::helpers` (not under `src/`) transposes a rectangular
matrix, so that "for each receiver position we have a vector of
`TOTAL_DEALINGS` partial verification-key components". -/
def transpose_matrix {α : Type} (m : List (List α)) : List (List α) :=
  match m with
  | [] => []
  | r :: _ => (List.range r.length).map (fun i => m.filterMap (fun row => row.get? i))

/-- The ledger reads consumed by `verification_key_validation`. -/
structure ValidationClient where
  sharesResult : Except Unit (List ContractVKShare)
  proposalsResult : Except Unit (List ProposalResponse)

/-- The decision taken for one `ContractVKShare` inside the
`for contract_share in vk_shares` loop (lines 197–223): `none` means no
vote is cast, `some (pid, b)` means a vote `b` on proposal `pid`. -/
def voteDecision (prim : CoconutPrimitives) (params : Params)
    (proposal_ids : List (Nat × Nat)) (receivers : List NodeIndex)
    (partials : List (List Nat)) (cs : ContractVKShare) : Option (Nat × Bool) :=
  match btLookup cs.owner proposal_ids with
  | none => none
  | some pid =>
    match prim.tryFromBs58 cs.share with
    | none => some (pid, false)
    | some vk =>
      match receivers.findIdx? (fun ni => cs.node_index == ni) with
      | none => none
      | some i => some (pid, prim.checkVkPairing params (partials.getD i []) vk)

/-- `verification_key_validation` (lines 172–227): short-circuit on
`voted_vks`; fetch the shares and proposals, build the owner → proposal-id
map from `Open` proposals, transpose the recovered partials, and vote on
each share per `voteDecision`, in fetch order; finally set `voted_vks`.
(The ledger's vote calls are modelled as succeeding.) -/
def verification_key_validation (prim : CoconutPrimitives) (client : ValidationClient)
    (state : State) : State × List Effect × Except CoconutError Unit :=
  if state.voted_vks then (state, [], Except.ok ())
  else
    match client.sharesResult with
    | Except.error _ => (state, [Effect.readShares], Except.error CoconutError.LedgerError)
    | Except.ok vk_shares =>
      match client.proposalsResult with
      | Except.error _ =>
        (state, [Effect.readShares, Effect.readProposals], Except.error CoconutError.LedgerError)
      | Except.ok proposals =>
        let proposal_ids := btFromList (proposals.filterMap validate_proposal)
        let receivers : List NodeIndex := state.current_dealers_by_idx.map (·.1)
        let partials := transpose_matrix (state.recovered_vks.map (·.recovered_partials))
        match prim.paramsNew (PUBLIC_ATTRIBUTES + PRIVATE_ATTRIBUTES) with
        | Except.error e =>
          (state, [Effect.readShares, Effect.readProposals], Except.error e)
        | Except.ok params =>
          let votes := vk_shares.filterMap
            (voteDecision prim params proposal_ids receivers partials)
          ({ state with voted_vks := true },
           [Effect.readShares, Effect.readProposals] ++ votes.map (fun v => Effect.vote v.1 v.2),
           Except.ok ())

/-! ### Finalization (`verification_key_finalization`) -/

/-- The ledger operation consumed by finalization. -/
structure FinalizationClient where
  executeResult : Nat → Except Unit Unit

/-- `verification_key_finalization` (lines 229–245): short-circuit on
`executed_proposal`; otherwise execute the stored proposal id and set the
flag. -/
def verification_key_finalization (client : FinalizationClient) (state : State) :
    State × List Effect × Except CoconutError Unit :=
  if state.executed_proposal then (state, [], Except.ok ())
  else
    match state.proposal_id with
    | none => (state, [], Except.error CoconutError.StateError)
    | some pid =>
      match client.executeResult pid with
      | Except.error _ =>
        (state, [Effect.executeProposal pid], Except.error CoconutError.LedgerError)
      | Except.ok _ =>
        ({ state with executed_proposal := true }, [Effect.executeProposal pid], Except.ok ())

/-! ### Helper lemmas: marking and status -/

theorem mark_dealers_fst (s : State) (b : Addr) (r : ComplaintReason) :
    (s.mark_bad_dealer b r).dealers.map Prod.fst = s.dealers.map Prod.fst := by
  simp only [State.mark_bad_dealer, List.map_map]
  apply List.map_congr_left
  intro e _
  by_cases h : e.1.addr = b <;> simp [h]

theorem find?_status_mark (l : List (DealerEntry × Option ComplaintReason))
    (b a : Addr) (r : ComplaintReason) :
    ((l.map (fun e => if e.1.addr = b then (e.1, some r) else e)).find?
        (fun e => e.1.addr == a)).map (·.2)
      = if b = a then
          ((l.find? (fun e => e.1.addr == a)).map (·.2)).map (fun _ => some r)
        else (l.find? (fun e => e.1.addr == a)).map (·.2) := by
  induction l with
  | nil => by_cases h : b = a <;> simp [h]
  | cons e l ih =>
    have hfst : (if e.1.addr = b then (e.1, some r) else e).1 = e.1 := by
      by_cases h : e.1.addr = b <;> simp [h]
    by_cases ha : e.1.addr = a
    · rw [List.map_cons,
        List.find?_cons_of_pos _ (by rw [hfst]; simp [ha]),
        List.find?_cons_of_pos _ (by simp [ha])]
      by_cases hb : b = a
      · have heb : e.1.addr = b := by rw [ha, hb]
        simp [heb, hb]
      · have heb : ¬ e.1.addr = b := by rw [ha]; exact fun h => hb h.symm
        simp [heb, hb]
    · rw [List.map_cons,
        List.find?_cons_of_neg _ (by rw [hfst]; simp [ha]),
        List.find?_cons_of_neg _ (by simp [ha])]
      exact ih

theorem dealerStatus_mark (s : State) (b a : Addr) (r : ComplaintReason) :
    dealerStatus (s.mark_bad_dealer b r) a
      = if b = a then (dealerStatus s a).map (fun _ => some r) else dealerStatus s a := by
  simpa [dealerStatus, State.mark_bad_dealer] using find?_status_mark s.dealers b a r

theorem dealerStatus_isSome_of_fst_eq {s s' : State}
    (h : s'.dealers.map Prod.fst = s.dealers.map Prod.fst) (a : Addr) :
    (dealerStatus s' a).isSome = (dealerStatus s a).isSome := by
  have hmap : ∀ x : Option (DealerEntry × Option ComplaintReason),
      (x.map (·.2)).isSome = x.isSome := by
    intro x; cases x <;> rfl
  have key : ∀ t : State, (dealerStatus t a).isSome
      = (t.dealers.map Prod.fst).any (fun d => d.addr == a) := by
    intro t
    rw [dealerStatus, hmap, Bool.eq_iff_iff, List.find?_isSome]
    simp
  rw [key, key, h]

/-! ### Helper lemmas: decomposing the filter's per-dealing fold -/

/-- The complaint (if any) that processing one contract dealing records
against its dealer. -/
def dealingMark (prim : DkgPrimitives) (threshold : Nat)
    (receivers : List (NodeIndex × Nat)) (cd : ContractDealing) : Option ComplaintReason :=
  match prim.tryFromBytes cd.dealing with
  | some dealing =>
    if !(prim.verifyDealing dealing threshold receivers) then
      some ComplaintReason.DealingVerificationError
    else none
  | none => some ComplaintReason.MalformedDealing

/-- The map entry (if any) that processing one contract dealing yields. -/
def dealingEntry (prim : DkgPrimitives) (threshold : Nat)
    (receivers : List (NodeIndex × Nat)) (initialDealers : List (Addr × NodeIndex))
    (cd : ContractDealing) : Option (NodeIndex × Addr × Dealing) :=
  match prim.tryFromBytes cd.dealing with
  | some dealing =>
    if !(prim.verifyDealing dealing threshold receivers) then none
    else (btLookup cd.dealer initialDealers).map (fun idx => (idx, cd.dealer, dealing))
  | none => none

/-- The state component of processing one contract dealing. -/
def stateStep (prim : DkgPrimitives) (threshold : Nat)
    (receivers : List (NodeIndex × Nat)) (st : State) (cd : ContractDealing) : State :=
  match dealingMark prim threshold receivers cd with
  | some r => st.mark_bad_dealer cd.dealer r
  | none => st

theorem processDealing_eq (prim : DkgPrimitives) (threshold : Nat)
    (receivers : List (NodeIndex × Nat)) (initialDealers : List (Addr × NodeIndex))
    (st : State) (es : List (NodeIndex × Addr × Dealing)) (cd : ContractDealing) :
    processContractDealing prim threshold receivers initialDealers (st, es) cd
      = (stateStep prim threshold receivers st cd,
         es ++ (dealingEntry prim threshold receivers initialDealers cd).toList) := by
  simp only [processContractDealing, stateStep, dealingMark, dealingEntry]
  cases prim.tryFromBytes cd.dealing with
  | none => simp
  | some dealing =>
    by_cases hv : prim.verifyDealing dealing threshold receivers
    · cases btLookup cd.dealer initialDealers <;> simp [hv]
    · simp [hv]

theorem processFold_eq (prim : DkgPrimitives) (threshold : Nat)
    (receivers : List (NodeIndex × Nat)) (initialDealers : List (Addr × NodeIndex))
    (l : List ContractDealing) :
    ∀ (st : State) (es : List (NodeIndex × Addr × Dealing)),
    l.foldl (processContractDealing prim threshold receivers initialDealers) (st, es)
      = (l.foldl (stateStep prim threshold receivers) st,
         es ++ l.filterMap (dealingEntry prim threshold receivers initialDealers)) := by
  induction l with
  | nil => intro st es; simp
  | cons cd l ih =>
    intro st es
    rw [List.foldl_cons, processDealing_eq, ih]
    cases h : dealingEntry prim threshold receivers initialDealers cd <;>
      simp [List.foldl_cons, List.filterMap_cons, h]

/-- The complaints that a list of contract dealings records against
address `a`, in processing order. -/
def marksOf (prim : DkgPrimitives) (threshold : Nat)
    (receivers : List (NodeIndex × Nat)) (a : Addr) (l : List ContractDealing) :
    List ComplaintReason :=
  l.filterMap (fun cd => if cd.dealer = a then dealingMark prim threshold receivers cd else none)

theorem stateFold_status (prim : DkgPrimitives) (threshold : Nat)
    (receivers : List (NodeIndex × Nat)) (a : Addr) (l : List ContractDealing) :
    ∀ st : State,
    dealerStatus (l.foldl (stateStep prim threshold receivers) st) a
      = match (marksOf prim threshold receivers a l).getLast? with
        | some r => (dealerStatus st a).map (fun _ => some r)
        | none => dealerStatus st a := by
  induction l with
  | nil => intro st; simp [marksOf]
  | cons cd l ih =>
    intro st
    rw [List.foldl_cons, ih]
    by_cases ha : cd.dealer = a
    · cases hm : dealingMark prim threshold receivers cd with
      | none =>
        have : marksOf prim threshold receivers a (cd :: l)
            = marksOf prim threshold receivers a l := by
          simp [marksOf, List.filterMap_cons, ha, hm]
        rw [this]
        have : stateStep prim threshold receivers st cd = st := by
          simp [stateStep, hm]
        rw [this]
      | some r =>
        have hcons : marksOf prim threshold receivers a (cd :: l)
            = r :: marksOf prim threshold receivers a l := by
          simp [marksOf, List.filterMap_cons, ha, hm]
        have hstep : stateStep prim threshold receivers st cd
            = st.mark_bad_dealer a r := by
          simp [stateStep, hm, ha]
        rw [hcons, hstep, dealerStatus_mark]
        simp only [if_pos rfl]
        cases hlast : (marksOf prim threshold receivers a l).getLast? with
        | none => simp [List.getLast?_cons, hlast]
        | some r' =>
          simp [List.getLast?_cons, hlast, Option.map_map]
          cases dealerStatus st a <;> rfl
    · have hcons : marksOf prim threshold receivers a (cd :: l)
          = marksOf prim threshold receivers a l := by
        simp [marksOf, List.filterMap_cons, ha]
      have hstep : dealerStatus (stateStep prim threshold receivers st cd) a
          = dealerStatus st a := by
        cases hm : dealingMark prim threshold receivers cd with
        | none => simp [stateStep, hm]
        | some r => rw [stateStep]; simp only [hm]; rw [dealerStatus_mark, if_neg ha]
      rw [hcons, hstep]

theorem stateStep_fst (prim : DkgPrimitives) (threshold : Nat)
    (receivers : List (NodeIndex × Nat)) (st : State) (cd : ContractDealing) :
    (stateStep prim threshold receivers st cd).dealers.map Prod.fst
      = st.dealers.map Prod.fst := by
  cases hm : dealingMark prim threshold receivers cd with
  | none => simp [stateStep, hm]
  | some r => simp [stateStep, hm, mark_dealers_fst]

theorem stateFold_fst (prim : DkgPrimitives) (threshold : Nat)
    (receivers : List (NodeIndex × Nat)) (l : List ContractDealing) :
    ∀ st : State,
    (l.foldl (stateStep prim threshold receivers) st).dealers.map Prod.fst
      = st.dealers.map Prod.fst := by
  induction l with
  | nil => intro st; rfl
  | cons cd l ih => intro st; rw [List.foldl_cons, ih, stateStep_fst]

theorem dealerStatus_mark_isSome (s : State) (b : Addr) (r : ComplaintReason) (a : Addr) :
    (dealerStatus (s.mark_bad_dealer b r) a).isSome = (dealerStatus s a).isSome := by
  rw [dealerStatus_mark]
  by_cases h : b = a <;> simp [h]

/-! ### Helper lemmas: the completeness pass -/

theorem CP_preserves_missing (maps : List DealingsMap) (a : Addr)
    (dl : List (Addr × NodeIndex)) :
    ∀ st : State,
    dealerStatus st a = some (some ComplaintReason.MissingDealing) →
    dealerStatus (completenessPass dl maps st) a
      = some (some ComplaintReason.MissingDealing) := by
  induction dl with
  | nil => intro st h; exact h
  | cons hd dl ih =>
    intro st h
    rw [completenessPass, List.foldl_cons]
    by_cases hc : maps.any (fun m => !(m.any (fun e => e.2.1 == hd.1))) = true
    · rw [if_pos hc]
      apply ih
      rw [dealerStatus_mark]
      by_cases hb : hd.1 = a <;> simp [hb, h]
    · rw [if_neg hc]
      exact ih st h

theorem CP_marks (maps : List DealingsMap) (a : Addr)
    (hcond : maps.any (fun m => !(m.any (fun e => e.2.1 == a))) = true)
    (dl : List (Addr × NodeIndex)) :
    ∀ st : State, (∃ i, (a, i) ∈ dl) → (dealerStatus st a).isSome →
    dealerStatus (completenessPass dl maps st) a
      = some (some ComplaintReason.MissingDealing) := by
  induction dl with
  | nil => intro st hmem _; simp at hmem
  | cons hd dl ih =>
    intro st hmem hsome
    rw [completenessPass, List.foldl_cons]
    by_cases hb : hd.1 = a
    · rw [hb, if_pos hcond]
      apply CP_preserves_missing
      rw [dealerStatus_mark, if_pos rfl]
      obtain ⟨v, hv⟩ := Option.isSome_iff_exists.1 hsome
      rw [hv]
      rfl
    · have hmem' : ∃ i, (a, i) ∈ dl := by
        obtain ⟨i, hi⟩ := hmem
        rcases List.mem_cons.1 hi with heq | hin
        · exact absurd (congrArg Prod.fst heq).symm hb
        · exact ⟨i, hin⟩
      by_cases hc : maps.any (fun m => !(m.any (fun e => e.2.1 == hd.1))) = true
      · rw [if_pos hc]
        apply ih _ hmem'
        rw [dealerStatus_mark_isSome]
        exact hsome
      · rw [if_neg hc]
        exact ih st hmem' hsome

/-! ### Helper lemmas: the BTreeMap model -/

theorem mem_btInsert {α : Type} (k : Nat) (v : α) (x : Nat × α) :
    ∀ m : List (Nat × α), x ∈ btInsert k v m → x = (k, v) ∨ x ∈ m := by
  intro m
  induction m with
  | nil => intro h; simp [btInsert] at h; exact Or.inl h
  | cons kv rest ih =>
    intro h
    rw [btInsert] at h
    by_cases h1 : k < kv.1
    · simp only [if_pos h1] at h
      rcases List.mem_cons.1 h with h' | h'
      · exact Or.inl h'
      · exact Or.inr h'
    · rw [if_neg h1] at h
      by_cases h2 : k = kv.1
      · simp only [if_pos h2] at h
        rcases List.mem_cons.1 h with h' | h'
        · exact Or.inl h'
        · exact Or.inr (List.mem_cons_of_mem _ h')
      · simp only [if_neg h2] at h
        rcases List.mem_cons.1 h with h' | h'
        · exact Or.inr (h' ▸ List.mem_cons_self _ _)
        · rcases ih h' with h'' | h''
          · exact Or.inl h''
          · exact Or.inr (List.mem_cons_of_mem _ h'')

theorem mem_btFromList {α : Type} (l : List (Nat × α)) (x : Nat × α) :
    x ∈ btFromList l → x ∈ l := by
  have aux : ∀ (l : List (Nat × α)) (acc : List (Nat × α)),
      x ∈ l.foldl (fun m kv => btInsert kv.1 kv.2 m) acc → x ∈ acc ∨ x ∈ l := by
    intro l
    induction l with
    | nil => intro acc h; exact Or.inl h
    | cons kv rest ih =>
      intro acc h
      rw [List.foldl_cons] at h
      rcases ih _ h with h' | h'
      · rcases mem_btInsert _ _ _ _ h' with h'' | h''
        · exact Or.inr (h'' ▸ List.mem_cons_self _ _)
        · exact Or.inl h''
      · exact Or.inr (List.mem_cons_of_mem _ h')
  intro h
  rcases aux l [] h with h' | h'
  · simp at h'
  · exact h'

theorem key_mem_btInsert {α : Type} (k : Nat) (v : α) (k' : Nat) :
    ∀ m : List (Nat × α),
    (∃ w, (k', w) ∈ btInsert k v m) ↔ k' = k ∨ ∃ w, (k', w) ∈ m := by
  intro m
  induction m with
  | nil => simp [btInsert]
  | cons kv rest ih =>
    rw [btInsert]
    by_cases h1 : k < kv.1
    · rw [if_pos h1]
      constructor
      · rintro ⟨w, hw⟩
        rcases List.mem_cons.1 hw with h' | h'
        · exact Or.inl (congrArg Prod.fst h')
        · exact Or.inr ⟨w, h'⟩
      · rintro (rfl | ⟨w, hw⟩)
        · exact ⟨v, List.mem_cons_self _ _⟩
        · exact ⟨w, List.mem_cons_of_mem _ hw⟩
    · rw [if_neg h1]
      by_cases h2 : k = kv.1
      · rw [if_pos h2]
        constructor
        · rintro ⟨w, hw⟩
          rcases List.mem_cons.1 hw with h' | h'
          · exact Or.inl (congrArg Prod.fst h')
          · exact Or.inr ⟨w, List.mem_cons_of_mem _ h'⟩
        · rintro (rfl | ⟨w, hw⟩)
          · exact ⟨v, List.mem_cons_self _ _⟩
          · rcases List.mem_cons.1 hw with h' | h'
            · have hk : k' = k := (congrArg Prod.fst h').trans h2.symm
              exact ⟨v, (by rw [hk]; exact List.mem_cons_self _ _)⟩
            · exact ⟨w, List.mem_cons_of_mem _ h'⟩
      · rw [if_neg h2]
        constructor
        · rintro ⟨w, hw⟩
          rcases List.mem_cons.1 hw with h' | h'
          · exact Or.inr ⟨w, h' ▸ List.mem_cons_self _ _⟩
          · rcases (ih).1 ⟨w, h'⟩ with h'' | ⟨w', hw'⟩
            · exact Or.inl h''
            · exact Or.inr ⟨w', List.mem_cons_of_mem _ hw'⟩
        · rintro (rfl | ⟨w, hw⟩)
          · obtain ⟨w', hw'⟩ := (ih).2 (Or.inl rfl)
            exact ⟨w', List.mem_cons_of_mem _ hw'⟩
          · rcases List.mem_cons.1 hw with h' | h'
            · exact ⟨w, h' ▸ List.mem_cons_self _ _⟩
            · obtain ⟨w', hw'⟩ := (ih).2 (Or.inr ⟨w, h'⟩)
              exact ⟨w', List.mem_cons_of_mem _ hw'⟩

theorem key_mem_btFromList {α : Type} (l : List (Nat × α)) (k' : Nat) :
    (∃ w, (k', w) ∈ btFromList l) ↔ ∃ w, (k', w) ∈ l := by
  have aux : ∀ (l acc : List (Nat × α)),
      (∃ w, (k', w) ∈ l.foldl (fun m kv => btInsert kv.1 kv.2 m) acc)
        ↔ (∃ w, (k', w) ∈ acc) ∨ ∃ w, (k', w) ∈ l := by
    intro l
    induction l with
    | nil => intro acc; simp
    | cons kv rest ih =>
      intro acc
      rw [List.foldl_cons, ih]
      rw [key_mem_btInsert]
      constructor
      · rintro ((rfl | ⟨w, hw⟩) | ⟨w, hw⟩)
        · exact Or.inr ⟨kv.2, by simp⟩
        · exact Or.inl ⟨w, hw⟩
        · exact Or.inr ⟨w, List.mem_cons_of_mem _ hw⟩
      · rintro (⟨w, hw⟩ | ⟨w, hw⟩)
        · exact Or.inl (Or.inr ⟨w, hw⟩)
        · rcases List.mem_cons.1 hw with h' | h'
          · exact Or.inl (Or.inl (congrArg Prod.fst h'))
          · exact Or.inr ⟨w, h'⟩
  rw [btFromList, aux]
  simp

theorem reg_in_by_addr (s : State) (a : Addr) (h : dealerStatus s a = some none) :
    ∃ i, (a, i) ∈ s.current_dealers_by_addr := by
  rw [dealerStatus] at h
  rcases hf : s.dealers.find? (fun e => e.1.addr == a) with _ | e
  · rw [hf] at h; simp at h
  · rw [hf] at h
    have he2 : e.2 = none := by simpa using h
    have hmem : e ∈ s.dealers := List.mem_of_find?_eq_some hf
    have hpred : e.1.addr = a := by simpa using List.find?_some hf
    have hfil : e ∈ s.dealers.filter (fun e => e.2.isNone) := by
      rw [List.mem_filter]
      exact ⟨hmem, by rw [he2]; rfl⟩
    have hmap : (a, e.1.index)
        ∈ (s.dealers.filter (fun e => e.2.isNone)).map (fun e => (e.1.addr, e.1.index)) := by
      rw [← hpred]
      exact List.mem_map_of_mem _ hfil
    have := (key_mem_btFromList
      ((s.dealers.filter (fun e => e.2.isNone)).map (fun e => (e.1.addr, e.1.index))) a).2
      ⟨e.1.index, hmap⟩
    exact this

/-! ### Helper lemmas: the filter loop -/

theorem filterLoop_fst (prim : DkgPrimitives)
    (getD : Nat → Except Unit (List ContractDealing)) (t : Nat)
    (recv : List (NodeIndex × Nat)) (dlrs : List (Addr × NodeIndex)) :
    ∀ (idxs : List Nat) (st : State) (effs : List Effect) (maps : List DealingsMap),
    (filterLoop prim getD t recv dlrs idxs st effs maps).1.dealers.map Prod.fst
      = st.dealers.map Prod.fst := by
  intro idxs
  induction idxs with
  | nil => intro st effs maps; rfl
  | cons i rest ih =>
    intro st effs maps
    rw [filterLoop]
    cases hd : getD i with
    | error e => rfl
    | ok dealings =>
      simp only
      rw [ih, processFold_eq]
      exact stateFold_fst prim t recv dealings st

theorem filter_ok_destruct (prim : DkgPrimitives)
    (getD : Nat → Except Unit (List ContractDealing)) (s : State) (t : Nat)
    (st' : State) (effs : List Effect) (maps : List DealingsMap)
    (h : deterministic_filter_dealers prim getD s t = (st', effs, Except.ok maps)) :
    ∃ stMid, filterLoop prim getD t s.current_dealers_by_idx s.current_dealers_by_addr
        (List.range TOTAL_DEALINGS) s [] [] = (stMid, effs, Except.ok maps)
      ∧ st' = completenessPass s.current_dealers_by_addr maps stMid := by
  rw [deterministic_filter_dealers] at h
  rcases hfl : filterLoop prim getD t s.current_dealers_by_idx s.current_dealers_by_addr
      (List.range TOTAL_DEALINGS) s [] [] with ⟨stMid, effs0, r⟩
  rw [hfl] at h
  cases r with
  | error e => simp at h
  | ok ms =>
    simp only [Prod.mk.injEq, Except.ok.injEq] at h
    obtain ⟨h1, h2, h3⟩ := h
    subst h2
    subst h3
    exact ⟨stMid, rfl, h1.symm⟩

/-- C1 (cross-polynomial completeness, I3): when
`deterministic_filter_dealers` returns successfully, every dealer that was
registered and unmarked at entry but absent from at least one of the
returned maps has final complaint reason `MissingDealing`; consequently
every dealer still unmarked at exit appears in every returned map. -/
theorem C1_cross_polynomial_completeness (prim : DkgPrimitives)
    (getD : Nat → Except Unit (List ContractDealing)) (s : State) (t : Nat)
    (st' : State) (effs : List Effect) (maps : List DealingsMap)
    (hrun : deterministic_filter_dealers prim getD s t = (st', effs, Except.ok maps))
    (a : Addr) (hreg : dealerStatus s a = some none) :
    ((∃ m ∈ maps, ∀ e ∈ m, e.2.1 ≠ a) →
       dealerStatus st' a = some (some ComplaintReason.MissingDealing))
    ∧ (dealerStatus st' a = some none → ∀ m ∈ maps, ∃ e ∈ m, e.2.1 = a) := by
  obtain ⟨stMid, hfl, hcp⟩ := filter_ok_destruct prim getD s t st' effs maps hrun
  have hfst : stMid.dealers.map Prod.fst = s.dealers.map Prod.fst := by
    have := filterLoop_fst prim getD t s.current_dealers_by_idx s.current_dealers_by_addr
      (List.range TOTAL_DEALINGS) s [] []
    rw [hfl] at this
    exact this
  have hisSome : (dealerStatus stMid a).isSome := by
    rw [dealerStatus_isSome_of_fst_eq hfst]
    rw [hreg]
    rfl
  have key : (∃ m ∈ maps, ∀ e ∈ m, e.2.1 ≠ a) →
      dealerStatus st' a = some (some ComplaintReason.MissingDealing) := by
    rintro ⟨m, hm, hnone⟩
    have hcond : maps.any (fun mm => !(mm.any (fun e => e.2.1 == a))) = true := by
      rw [List.any_eq_true]
      refine ⟨m, hm, ?_⟩
      simp only [Bool.not_eq_true']
      rw [List.any_eq_false]
      intro e he
      simpa using hnone e he
    rw [hcp]
    exact CP_marks maps a hcond _ stMid (reg_in_by_addr s a hreg) hisSome
  refine ⟨key, ?_⟩
  intro hnone m hm
  by_contra hcontra
  push_neg at hcontra
  have := key ⟨m, hm, hcontra⟩
  rw [hnone] at this
  simp at this

/-! ### Helper lemmas towards the two-pass classification -/

theorem marksOf_of_filter_nil (prim : DkgPrimitives) (t : Nat)
    (recv : List (NodeIndex × Nat)) (a : Addr) (l : List ContractDealing)
    (h : l.filter (fun cd => cd.dealer == a) = []) :
    marksOf prim t recv a l = [] := by
  induction l with
  | nil => rfl
  | cons cd l ih =>
    by_cases ha : cd.dealer = a
    · rw [List.filter_cons_of_pos (by simpa using ha)] at h
      simp at h
    · rw [List.filter_cons_of_neg (by simpa using ha)] at h
      rw [marksOf, List.filterMap_cons, if_neg ha]
      exact ih h

theorem marksOf_single (prim : DkgPrimitives) (t : Nat)
    (recv : List (NodeIndex × Nat)) (a : Addr) (c : ContractDealing) :
    ∀ l : List ContractDealing, l.filter (fun cd => cd.dealer == a) = [c] →
    marksOf prim t recv a l = (dealingMark prim t recv c).toList := by
  intro l
  induction l with
  | nil => intro h; simp at h
  | cons cd l ih =>
    intro h
    by_cases ha : cd.dealer = a
    · rw [List.filter_cons_of_pos (by simpa using ha)] at h
      simp only [List.cons.injEq] at h
      obtain ⟨rfl, hrest⟩ := h
      rw [marksOf, List.filterMap_cons, if_pos ha]
      have hnil : marksOf prim t recv a l = [] := marksOf_of_filter_nil prim t recv a l hrest
      rw [marksOf] at hnil
      cases hm : dealingMark prim t recv cd <;> simp [hnil, hm]
    · rw [List.filter_cons_of_neg (by simpa using ha)] at h
      rw [marksOf, List.filterMap_cons, if_neg ha]
      exact ih h

theorem idxFold_status (prim : DkgPrimitives) (t : Nat)
    (recv : List (NodeIndex × Nat)) (L : Nat → List ContractDealing)
    (a : Addr) (pstar : Nat) (r : ComplaintReason) :
    ∀ idxs : List Nat,
    (∀ i ∈ idxs, (marksOf prim t recv a (L i)).getLast?
        = if i = pstar then some r else none) →
    ∀ st : State, (dealerStatus st a).isSome →
    dealerStatus (idxs.foldl (fun s i => (L i).foldl (stateStep prim t recv) s) st) a
      = if pstar ∈ idxs then some (some r) else dealerStatus st a := by
  intro idxs
  induction idxs with
  | nil => intro _ st _; simp
  | cons i rest ih =>
    intro hmark st hsome
    rw [List.foldl_cons]
    have hstep := stateFold_status prim t recv a (L i) st
    have hstepSome : (dealerStatus ((L i).foldl (stateStep prim t recv) st) a).isSome := by
      rw [dealerStatus_isSome_of_fst_eq (stateFold_fst prim t recv (L i) st)]
      exact hsome
    have hi := hmark i (List.mem_cons_self _ _)
    by_cases hip : i = pstar
    · rw [if_pos hip] at hi
      rw [hi] at hstep
      obtain ⟨v, hv⟩ := Option.isSome_iff_exists.1 hsome
      have hstep' : dealerStatus ((L i).foldl (stateStep prim t recv) st) a
          = some (some r) := by
        simp [hstep, hv]
      rw [ih (fun j hj => hmark j (List.mem_cons_of_mem _ hj)) _ hstepSome]
      by_cases hpr : pstar ∈ rest
      · rw [if_pos hpr, if_pos (by rw [hip]; exact List.mem_cons_self _ _)]
      · rw [if_neg hpr, hstep', if_pos (by rw [hip]; exact List.mem_cons_self _ _)]
    · rw [if_neg hip] at hi
      rw [hi] at hstep
      have hstep' : dealerStatus ((L i).foldl (stateStep prim t recv) st) a
          = dealerStatus st a := by
        simp [hstep]
      rw [ih (fun j hj => hmark j (List.mem_cons_of_mem _ hj)) _ hstepSome, hstep']
      by_cases hpr : pstar ∈ rest
      · rw [if_pos hpr, if_pos (List.mem_cons_of_mem _ hpr)]
      · rw [if_neg hpr, if_neg (by
          intro hcontra
          rcases List.mem_cons.1 hcontra with h' | h'
          · exact hip h'.symm
          · exact hpr h')]

theorem filterLoop_all_ok (prim : DkgPrimitives)
    (getD : Nat → Except Unit (List ContractDealing)) (t : Nat)
    (recv : List (NodeIndex × Nat)) (dlrs : List (Addr × NodeIndex))
    (L : Nat → List ContractDealing) :
    ∀ idxs : List Nat, (∀ i ∈ idxs, getD i = Except.ok (L i)) →
    ∀ (st : State) (effs : List Effect) (maps : List DealingsMap),
    filterLoop prim getD t recv dlrs idxs st effs maps
      = (idxs.foldl (fun s i => (L i).foldl (stateStep prim t recv) s) st,
         effs ++ idxs.map Effect.readDealings,
         Except.ok (maps ++ idxs.map (fun i =>
           btFromList ((L i).filterMap (dealingEntry prim t recv dlrs))))) := by
  intro idxs
  induction idxs with
  | nil => intro _ st effs maps; simp [filterLoop]
  | cons i rest ih =>
    intro hok st effs maps
    rw [filterLoop, hok i (List.mem_cons_self _ _)]
    simp only
    rw [processFold_eq, ih (fun j hj => hok j (List.mem_cons_of_mem _ hj))]
    simp

theorem filter_eq_of_loop (prim : DkgPrimitives)
    (getD : Nat → Except Unit (List ContractDealing)) (s : State) (t : Nat)
    (st0 : State) (e0 : List Effect) (m0 : List DealingsMap)
    (h : filterLoop prim getD t s.current_dealers_by_idx s.current_dealers_by_addr
        (List.range TOTAL_DEALINGS) s [] [] = (st0, e0, Except.ok m0)) :
    deterministic_filter_dealers prim getD s t
      = (completenessPass s.current_dealers_by_addr m0 st0, e0, Except.ok m0) := by
  rw [deterministic_filter_dealers, h]

theorem CP_fst (maps : List DealingsMap) (dl : List (Addr × NodeIndex)) :
    ∀ st : State,
    (completenessPass dl maps st).dealers.map Prod.fst = st.dealers.map Prod.fst := by
  induction dl with
  | nil => intro st; rfl
  | cons hd dl ih =>
    intro st
    rw [completenessPass, List.foldl_cons]
    by_cases hc : maps.any (fun m => !(m.any (fun e => e.2.1 == hd.1))) = true
    · rw [if_pos hc]
      simp only [completenessPass] at ih
      rw [ih, mark_dealers_fst]
    · rw [if_neg hc]
      simp only [completenessPass] at ih
      rw [ih]

theorem CP_other (maps : List DealingsMap) (a : Addr) :
    ∀ dl : List (Addr × NodeIndex), (∀ i, (a, i) ∉ dl) →
    ∀ st : State, dealerStatus (completenessPass dl maps st) a = dealerStatus st a := by
  intro dl
  induction dl with
  | nil => intro _ st; rfl
  | cons hd dl ih =>
    intro hnot st
    have hhd : hd.1 ≠ a := by
      intro hcontra
      exact hnot hd.2 (by
        rw [← hcontra]
        exact List.mem_cons_self _ _)
    have hnot' : ∀ i, (a, i) ∉ dl := fun i hi => hnot i (List.mem_cons_of_mem _ hi)
    rw [completenessPass, List.foldl_cons]
    by_cases hc : maps.any (fun m => !(m.any (fun e => e.2.1 == hd.1))) = true
    · rw [if_pos hc]
      simp only [completenessPass] at ih
      rw [ih hnot' _, dealerStatus_mark, if_neg hhd]
    · rw [if_neg hc]
      simp only [completenessPass] at ih
      rw [ih hnot' _]

theorem find?_status_nodup (a : Addr) (e : DealerEntry × Option ComplaintReason) :
    ∀ l : List (DealerEntry × Option ComplaintReason),
    (l.map (fun e => e.1.addr)).Nodup → e ∈ l → e.1.addr = a →
    (l.find? (fun e => e.1.addr == a)).map (·.2) = some e.2 := by
  intro l
  induction l with
  | nil => intro _ he _; simp at he
  | cons hd l ih =>
    intro hnodup he ha
    rw [List.map_cons, List.nodup_cons] at hnodup
    rcases List.mem_cons.1 he with rfl | hmem
    · rw [List.find?_cons_of_pos _ (by simpa using ha)]
      rfl
    · have hda : hd.1.addr ≠ a := by
        intro hcontra
        exact hnodup.1 (by
          rw [hcontra, ← ha]
          exact List.mem_map_of_mem _ hmem)
      rw [List.find?_cons_of_neg _ (by simpa using hda)]
      exact ih hnodup.2 hmem ha

theorem status_of_mem_nodup (s : State)
    (hnodup : (s.dealers.map (fun e => e.1.addr)).Nodup)
    (e : DealerEntry × Option ComplaintReason) (a : Addr)
    (he : e ∈ s.dealers) (ha : e.1.addr = a) : dealerStatus s a = some e.2 :=
  find?_status_nodup a e s.dealers hnodup he ha

theorem not_in_by_addr (s : State)
    (hnodup : (s.dealers.map (fun e => e.1.addr)).Nodup)
    (a : Addr) (r : ComplaintReason)
    (h : dealerStatus s a = some (some r)) :
    ∀ i, (a, i) ∉ s.current_dealers_by_addr := by
  intro i hmem
  have hmem' := mem_btFromList _ _ hmem
  obtain ⟨e, hefil, heq⟩ := List.mem_map.1 hmem'
  obtain ⟨hedlr, hisNone⟩ := List.mem_filter.1 hefil
  have ha : e.1.addr = a := congrArg Prod.fst heq
  have := status_of_mem_nodup s hnodup e a hedlr ha
  rw [h] at this
  have he2 : e.2 = some r := by
    injection this.symm
  rw [he2] at hisNone
  simp at hisNone

theorem dealingEntry_addr (prim : DkgPrimitives) (t : Nat)
    (recv : List (NodeIndex × Nat)) (dlrs : List (Addr × NodeIndex))
    (cd : ContractDealing) (e : NodeIndex × Addr × Dealing)
    (h : dealingEntry prim t recv dlrs cd = some e) : e.2.1 = cd.dealer := by
  rw [dealingEntry] at h
  cases hp : prim.tryFromBytes cd.dealing with
  | none => rw [hp] at h; simp at h
  | some d =>
    rw [hp] at h
    by_cases hv : prim.verifyDealing d t recv
    · simp only [hv, Bool.not_true, Bool.false_eq_true, if_false] at h
      cases hl : btLookup cd.dealer dlrs with
      | none => rw [hl] at h; simp at h
      | some idx =>
        rw [hl] at h
        simp only [Option.map_some', Option.some.injEq] at h
        rw [← h]
    · simp [hv] at h

theorem no_a_entry_of_bad_single (prim : DkgPrimitives) (t : Nat)
    (recv : List (NodeIndex × Nat)) (dlrs : List (Addr × NodeIndex))
    (a : Addr) (c : ContractDealing) (l : List ContractDealing)
    (hpost : l.filter (fun cd => cd.dealer == a) = [c])
    (hc : dealingEntry prim t recv dlrs c = none) :
    ∀ e ∈ btFromList (l.filterMap (dealingEntry prim t recv dlrs)), e.2.1 ≠ a := by
  intro e he hea
  have he' := mem_btFromList _ _ he
  obtain ⟨cd, hcd, hcde⟩ := List.mem_filterMap.1 he'
  have haddr : cd.dealer = a := by
    rw [← dealingEntry_addr prim t recv dlrs cd e hcde]
    exact hea
  have : cd ∈ l.filter (fun cd => cd.dealer == a) :=
    List.mem_filter.2 ⟨hcd, by simpa using haddr⟩
  rw [hpost] at this
  have : cd = c := by simpa using this
  rw [this, hc] at hcde
  exact Option.noConfusion hcde

theorem idxFold_fst (prim : DkgPrimitives) (t : Nat) (recv : List (NodeIndex × Nat))
    (L : Nat → List ContractDealing) :
    ∀ (idxs : List Nat) (st : State),
    ((idxs.foldl (fun s i => (L i).foldl (stateStep prim t recv) s) st).dealers.map Prod.fst)
      = st.dealers.map Prod.fst := by
  intro idxs
  induction idxs with
  | nil => intro st; rfl
  | cons i rest ih =>
    intro st
    rw [List.foldl_cons, ih, stateFold_fst]

theorem filter_all_ok (prim : DkgPrimitives)
    (getD : Nat → Except Unit (List ContractDealing)) (s : State) (t : Nat)
    (L : Nat → List ContractDealing)
    (hgetD : ∀ i ∈ List.range TOTAL_DEALINGS, getD i = Except.ok (L i)) :
    deterministic_filter_dealers prim getD s t
      = (completenessPass s.current_dealers_by_addr
           ((List.range TOTAL_DEALINGS).map (fun i => btFromList ((L i).filterMap
             (dealingEntry prim t s.current_dealers_by_idx s.current_dealers_by_addr))))
           ((List.range TOTAL_DEALINGS).foldl
             (fun st i => (L i).foldl (stateStep prim t s.current_dealers_by_idx) st) s),
         (List.range TOTAL_DEALINGS).map Effect.readDealings,
         Except.ok ((List.range TOTAL_DEALINGS).map (fun i => btFromList ((L i).filterMap
           (dealingEntry prim t s.current_dealers_by_idx s.current_dealers_by_addr))))) := by
  have h := filterLoop_all_ok prim getD t s.current_dealers_by_idx s.current_dealers_by_addr L
    (List.range TOTAL_DEALINGS) hgetD s [] []
  rw [List.nil_append, List.nil_append] at h
  exact filter_eq_of_loop prim getD s t _ _ _ h

/-- C2 (two-pass complaint classification): a dealer registered and
unmarked at entry with exactly one posted dealing per polynomial index, of
which exactly the one at index `pstar` fails (parsing, with specific
reason `MalformedDealing`, or verification, with specific reason
`DealingVerificationError`) while all its other dealings are valid, is
recorded with reason `MissingDealing` after the first invocation of
`deterministic_filter_dealers` and with the specific reason after a second
invocation on the same ledger contents. -/
theorem C2_two_pass_complaint_upgrade (prim : DkgPrimitives)
    (getD : Nat → Except Unit (List ContractDealing))
    (s : State) (t : Nat) (a : Addr) (L : Nat → List ContractDealing)
    (cs : Nat → ContractDealing) (pstar : Nat) (rspec : ComplaintReason)
    (hgetD : ∀ i, i < TOTAL_DEALINGS → getD i = Except.ok (L i))
    (hnodup : (s.dealers.map (fun e => e.1.addr)).Nodup)
    (hreg : dealerStatus s a = some none)
    (hp : pstar < TOTAL_DEALINGS)
    (hpost : ∀ i, i < TOTAL_DEALINGS →
      (L i).filter (fun cd => cd.dealer == a) = [cs i])
    (hgood : ∀ i, i < TOTAL_DEALINGS → i ≠ pstar →
      ∃ d, prim.tryFromBytes (cs i).dealing = some d
        ∧ ∀ recv, prim.verifyDealing d t recv = true)
    (hbad : (prim.tryFromBytes (cs pstar).dealing = none
              ∧ rspec = ComplaintReason.MalformedDealing)
          ∨ (∃ d, prim.tryFromBytes (cs pstar).dealing = some d
              ∧ (∀ recv, prim.verifyDealing d t recv = false)
              ∧ rspec = ComplaintReason.DealingVerificationError)) :
    dealerStatus (deterministic_filter_dealers prim getD s t).1 a
        = some (some ComplaintReason.MissingDealing)
    ∧ dealerStatus (deterministic_filter_dealers prim getD
          (deterministic_filter_dealers prim getD s t).1 t).1 a
        = some (some rspec) := by
  have hgetD' : ∀ i ∈ List.range TOTAL_DEALINGS, getD i = Except.ok (L i) :=
    fun i hi => hgetD i (List.mem_range.1 hi)
  have hentry_none : ∀ recv dlrs, dealingEntry prim t recv dlrs (cs pstar) = none := by
    intro recv dlrs
    rcases hbad with ⟨hn, _⟩ | ⟨d, hd, hv, _⟩
    · simp [dealingEntry, hn]
    · simp [dealingEntry, hd, hv recv]
  have hmark_at : ∀ recv : List (NodeIndex × Nat), ∀ i ∈ List.range TOTAL_DEALINGS,
      (marksOf prim t recv a (L i)).getLast? = if i = pstar then some rspec else none := by
    intro recv i hi
    have hi' := List.mem_range.1 hi
    rw [marksOf_single prim t recv a (cs i) (L i) (hpost i hi')]
    by_cases hip : i = pstar
    · subst hip
      rw [if_pos rfl]
      rcases hbad with ⟨hn, hr⟩ | ⟨d, hd, hv, hr⟩
      · subst hr
        simp [dealingMark, hn]
      · subst hr
        simp [dealingMark, hd, hv recv]
    · obtain ⟨d, hd, hv⟩ := hgood i hi' hip
      rw [if_neg hip]
      simp [dealingMark, hd, hv recv]
  -- first invocation
  have hfil1 := filter_all_ok prim getD s t L hgetD'
  set recv1 := s.current_dealers_by_idx with hrecv1
  set dlrs1 := s.current_dealers_by_addr with hdlrs1
  set S1 := (List.range TOTAL_DEALINGS).foldl
    (fun st i => (L i).foldl (stateStep prim t recv1) st) s with hS1
  set maps1 := (List.range TOTAL_DEALINGS).map (fun i => btFromList ((L i).filterMap
    (dealingEntry prim t recv1 dlrs1))) with hmaps1
  have h1 : (deterministic_filter_dealers prim getD s t).1
      = completenessPass dlrs1 maps1 S1 := by
    rw [hfil1]
  have hfstS1 : S1.dealers.map Prod.fst = s.dealers.map Prod.fst :=
    idxFold_fst prim t recv1 L (List.range TOTAL_DEALINGS) s
  have hsome1 : (dealerStatus S1 a).isSome := by
    rw [dealerStatus_isSome_of_fst_eq hfstS1, hreg]
    rfl
  have hcond1 : maps1.any (fun m => !(m.any (fun e => e.2.1 == a))) = true := by
    rw [List.any_eq_true]
    refine ⟨btFromList ((L pstar).filterMap (dealingEntry prim t recv1 dlrs1)), ?_, ?_⟩
    · rw [hmaps1]
      exact List.mem_map_of_mem _ (List.mem_range.2 hp)
    · simp only [Bool.not_eq_true']
      rw [List.any_eq_false]
      intro e he
      simpa using no_a_entry_of_bad_single prim t recv1 dlrs1 a (cs pstar) (L pstar)
        (hpost pstar hp) (hentry_none recv1 dlrs1) e he
  have goal1 : dealerStatus (deterministic_filter_dealers prim getD s t).1 a
      = some (some ComplaintReason.MissingDealing) := by
    rw [h1]
    exact CP_marks maps1 a hcond1 dlrs1 S1 (reg_in_by_addr s a hreg) hsome1
  -- the first invocation preserves the dealer identities
  have keymap : ∀ l : List (DealerEntry × Option ComplaintReason),
      l.map (fun e => e.1.addr) = (l.map Prod.fst).map (fun d => d.addr) := by
    intro l
    rw [List.map_map]
    rfl
  have hfst1 : (deterministic_filter_dealers prim getD s t).1.dealers.map Prod.fst
      = s.dealers.map Prod.fst := by
    rw [h1, CP_fst maps1 dlrs1, hfstS1]
  have hnodup1 : ((deterministic_filter_dealers prim getD s t).1.dealers.map
      (fun e => e.1.addr)).Nodup := by
    rw [keymap, hfst1, ← keymap]
    exact hnodup
  -- second invocation
  have hfil2 := filter_all_ok prim getD (deterministic_filter_dealers prim getD s t).1 t L hgetD'
  set recv2 := (deterministic_filter_dealers prim getD s t).1.current_dealers_by_idx with hrecv2
  set dlrs2 := (deterministic_filter_dealers prim getD s t).1.current_dealers_by_addr with hdlrs2
  set S2 := (List.range TOTAL_DEALINGS).foldl
    (fun st i => (L i).foldl (stateStep prim t recv2) st)
    (deterministic_filter_dealers prim getD s t).1 with hS2
  set maps2 := (List.range TOTAL_DEALINGS).map (fun i => btFromList ((L i).filterMap
    (dealingEntry prim t recv2 dlrs2))) with hmaps2
  have h2 : (deterministic_filter_dealers prim getD
      (deterministic_filter_dealers prim getD s t).1 t).1
      = completenessPass dlrs2 maps2 S2 := by
    rw [hfil2]
  have hsome2 : (dealerStatus (deterministic_filter_dealers prim getD s t).1 a).isSome := by
    rw [goal1]
    rfl
  have hstatusS2 : dealerStatus S2 a = some (some rspec) := by
    have h := idxFold_status prim t recv2 L a pstar rspec (List.range TOTAL_DEALINGS)
      (hmark_at recv2) (deterministic_filter_dealers prim getD s t).1 hsome2
    rw [if_pos (List.mem_range.2 hp)] at h
    exact h
  have hnot2 : ∀ i, (a, i) ∉ dlrs2 :=
    not_in_by_addr (deterministic_filter_dealers prim getD s t).1 hnodup1 a
      ComplaintReason.MissingDealing goal1
  refine ⟨goal1, ?_⟩
  rw [h2, CP_other maps2 a dlrs2 hnot2 S2, hstatusS2]

/-! ### Helper lemmas: derivation -/

/-- The per-polynomial combined scalar: the dealings of still-surviving
dealers are kept, recovery must succeed, our share is decrypted from each
dealing, and the shares are combined. -/
def scalarOfMap (prim : CoconutPrimitives) (t : Nat)
    (recv : List (NodeIndex × Nat)) (dlrs : List (Addr × NodeIndex))
    (dk ni : Nat) (m : DealingsMap) : Except CoconutError Scalar :=
  let filtered_dealings := m.filterMap
    (fun e => if dlrs.any (fun a => e.2.1 == a.1) then some e.2.2 else none)
  match try_recover_verification_keys prim filtered_dealings t recv with
  | Except.error e => Except.error e
  | Except.ok _ =>
    match filtered_dealings.mapM (fun d => prim.decryptShare dk ni d.ciphertexts) with
    | Except.error e => Except.error e
    | Except.ok shares => prim.combineShares shares (recv.map (·.1))

theorem deriveLoop_scalars (prim : CoconutPrimitives) (t : Nat)
    (recv : List (NodeIndex × Nat)) (dlrs : List (Addr × NodeIndex)) (dk ni : Nat) :
    ∀ (maps : List DealingsMap) (acc : List Scalar) (vkacc : List RecoveredVK)
      (res : List Scalar × List RecoveredVK),
    deriveLoop prim t recv dlrs dk ni maps acc vkacc = Except.ok res →
    ∃ tl, maps.mapM (scalarOfMap prim t recv dlrs dk ni) = Except.ok tl
      ∧ res.1 = acc ++ tl ∧ tl.length = maps.length := by
  intro maps
  induction maps with
  | nil =>
    intro acc vkacc res h
    rw [deriveLoop] at h
    have hres : res = (acc, vkacc) := by
      injection h with h'
      exact h'.symm
    exact ⟨[], rfl, by rw [hres, List.append_nil], rfl⟩
  | cons m rest ih =>
    intro acc vkacc res h
    rw [deriveLoop] at h
    cases hr : try_recover_verification_keys prim
        (m.filterMap (fun e => if dlrs.any (fun a => e.2.1 == a.1) then some e.2.2 else none))
        t recv with
    | error e =>
      simp only [hr] at h
      exact Except.noConfusion h
    | ok recovered =>
      simp only [hr] at h
      cases hd : (m.filterMap
          (fun e => if dlrs.any (fun a => e.2.1 == a.1) then some e.2.2 else none)).mapM
          (fun d => prim.decryptShare dk ni d.ciphertexts) with
      | error e =>
        simp only [hd] at h
        exact Except.noConfusion h
      | ok shares =>
        simp only [hd] at h
        cases hc : prim.combineShares shares (recv.map (·.1)) with
        | error e =>
          simp only [hc] at h
          exact Except.noConfusion h
        | ok scalar =>
          simp only [hc] at h
          obtain ⟨tl, htl, hres, hlen⟩ := ih (acc ++ [scalar]) (vkacc ++ [recovered]) res h
          have hsm : scalarOfMap prim t recv dlrs dk ni m = Except.ok scalar := by
            simp only [scalarOfMap, hr, hd, hc]
          refine ⟨scalar :: tl, ?_, ?_, ?_⟩
          · rw [List.mapM_cons, hsm, htl]
            rfl
          · rw [hres, List.append_assoc]
            rfl
          · rw [List.length_cons, hlen, List.length_cons]

theorem length_filterMap_keep (dlrs : List (Addr × NodeIndex)) (m : DealingsMap) :
    (m.filterMap (fun e => if dlrs.any (fun a => e.2.1 == a.1) then some e.2.2 else none)).length
      = (m.filter (fun e => dlrs.any (fun a => e.2.1 == a.1))).length := by
  induction m with
  | nil => rfl
  | cons e m ih =>
    by_cases h : dlrs.any (fun a => e.2.1 == a.1) = true
    · simp only [List.filterMap_cons, List.filter_cons, h, if_pos]
      simp [ih]
    · simp only [List.filterMap_cons, List.filter_cons]
      rw [if_neg h]
      simp only [Bool.false_eq_true] at h
      simp [h, ih]

/-- C5 (threshold precondition): when fewer than `threshold` dealers
survive filtering — the surviving by-address map is shorter than `t` — and
the first dealings map binds pairwise-distinct dealer addresses,
`derive_partial_keypair` fails with `ThresholdUnavailable` instead of
producing a keypair (the recovery primitive's threshold gate fires on the
first polynomial). -/
theorem C5_threshold_unavailable (prim : CoconutPrimitives) (s : State) (t : Nat)
    (m : DealingsMap) (rest : List DealingsMap)
    (hnodupm : (m.map (fun e => e.2.1)).Nodup)
    (hni : s.receiver_index.isSome)
    (hlow : s.current_dealers_by_addr.length < t) :
    (derive_partial_keypair prim s t (m :: rest)).2
      = RunResult.error CoconutError.ThresholdUnavailable := by
  obtain ⟨ni, hni'⟩ := Option.isSome_iff_exists.1 hni
  have hkeep : (m.filterMap (fun e =>
      if s.current_dealers_by_addr.any (fun a => e.2.1 == a.1) then some e.2.2 else none)).length
      < t := by
    rw [length_filterMap_keep]
    have hsubs : ((m.filter (fun e => s.current_dealers_by_addr.any
        (fun a => e.2.1 == a.1))).map (fun e => e.2.1))
        ⊆ s.current_dealers_by_addr.map Prod.fst := by
      intro x hx
      obtain ⟨e, he, rfl⟩ := List.mem_map.1 hx
      have hany := (List.mem_filter.1 he).2
      rw [List.any_eq_true] at hany
      obtain ⟨a, ha, hba⟩ := hany
      have heq : e.2.1 = a.1 := by simpa using hba
      rw [heq]
      exact List.mem_map_of_mem _ ha
    have hnodups : ((m.filter (fun e => s.current_dealers_by_addr.any
        (fun a => e.2.1 == a.1))).map (fun e => e.2.1)).Nodup :=
      List.Nodup.sublist (List.Sublist.map _ (List.filter_sublist m)) hnodupm
    have hlen : (m.filter (fun e => s.current_dealers_by_addr.any
        (fun a => e.2.1 == a.1))).length ≤ s.current_dealers_by_addr.length := by
      have e1 : (m.filter (fun e => s.current_dealers_by_addr.any
          (fun a => e.2.1 == a.1))).length
          = ((m.filter (fun e => s.current_dealers_by_addr.any
            (fun a => e.2.1 == a.1))).map (fun e => e.2.1)).length := by
        rw [List.length_map]
      rw [e1, ← List.toFinset_card_of_nodup hnodups]
      calc ((m.filter (fun e => s.current_dealers_by_addr.any
            (fun a => e.2.1 == a.1))).map (fun e => e.2.1)).toFinset.card
          ≤ (s.current_dealers_by_addr.map Prod.fst).toFinset.card := by
            apply Finset.card_le_card
            intro x hx
            rw [List.mem_toFinset] at hx ⊢
            exact hsubs hx
        _ ≤ (s.current_dealers_by_addr.map Prod.fst).length := List.toFinset_card_le _
        _ = s.current_dealers_by_addr.length := List.length_map _ _
    omega
  simp [derive_partial_keypair, hni', deriveLoop, try_recover_verification_keys, hkeep]

/-- C6 (secret-key assembly convention): when `derive_partial_keypair`
succeeds, the per-polynomial combined scalars (one per dealings map, in
input order, as computed by `scalarOfMap`) exist, the secret key's
top-level `x` is the **last** of them, and its `ys` are the preceding
scalars in order. -/
theorem C6_secret_assembly (prim : CoconutPrimitives) (s : State) (t : Nat)
    (maps : List DealingsMap) (st' : State) (kp : KeyPair)
    (h : derive_partial_keypair prim s t maps = (st', RunResult.ok kp)) :
    ∃ ni, s.receiver_index = some ni
      ∧ ∃ scalars, maps.mapM (scalarOfMap prim t s.current_dealers_by_idx
          s.current_dealers_by_addr s.dkg_sk ni) = Except.ok scalars
        ∧ scalars.getLast? = some kp.sk.x
        ∧ kp.sk.ys = scalars.dropLast := by
  rw [derive_partial_keypair] at h
  cases hni : s.receiver_index with
  | none =>
    simp only [hni] at h
    simp at h
  | some ni =>
    simp only [hni] at h
    refine ⟨ni, rfl, ?_⟩
    cases hloop : deriveLoop prim t s.current_dealers_by_idx s.current_dealers_by_addr
        s.dkg_sk ni maps [] [] with
    | error e =>
      simp only [hloop] at h
      simp at h
    | ok res =>
      simp only [hloop] at h
      obtain ⟨scalars, vks⟩ := res
      cases hpar : prim.paramsNew (PUBLIC_ATTRIBUTES + PRIVATE_ATTRIBUTES) with
      | error e =>
        simp only [hpar] at h
        simp at h
      | ok params =>
        simp only [hpar] at h
        cases hlast : scalars.getLast? with
        | none =>
          simp only [hlast] at h
          simp at h
        | some x =>
          simp only [hlast] at h
          obtain ⟨tl, htl, hres, _⟩ :=
            deriveLoop_scalars prim t s.current_dealers_by_idx s.current_dealers_by_addr
              s.dkg_sk ni maps [] [] (scalars, vks) hloop
          have hscal : scalars = tl := by simpa using hres
          have hkp : kp = ⟨⟨x, scalars.dropLast⟩, prim.verificationKeyOf ⟨x, scalars.dropLast⟩ params⟩ := by
            have := congrArg Prod.snd h

            simpa using this.symm
          refine ⟨tl, htl, ?_, ?_⟩
          · rw [← hscal, hlast, hkp]
          · rw [hkp, ← hscal]

/-- C9 (non-panic of secret assembly): with a non-empty `dealings_maps`
vector the `scalars.pop().unwrap()` in `derive_partial_keypair` can never
panic — the function returns an error or a keypair — while with an empty
vector (never produced by the filter, which returns `TOTAL_DEALINGS` maps)
the function panics provided the earlier steps succeed. -/
theorem C9_pop_unwrap (prim : CoconutPrimitives) (s : State) (t : Nat) :
    (∀ maps : List DealingsMap, maps ≠ [] →
      (derive_partial_keypair prim s t maps).2 ≠ RunResult.panic)
    ∧ ((∃ p, prim.paramsNew (PUBLIC_ATTRIBUTES + PRIVATE_ATTRIBUTES) = Except.ok p) →
        s.receiver_index.isSome →
        (derive_partial_keypair prim s t []).2 = RunResult.panic) := by
  constructor
  · intro maps hne
    rw [derive_partial_keypair]
    cases hni : s.receiver_index with
    | none => simp
    | some ni =>
      simp only
      cases hloop : deriveLoop prim t s.current_dealers_by_idx s.current_dealers_by_addr
          s.dkg_sk ni maps [] [] with
      | error e => simp
      | ok res =>
        obtain ⟨scalars, vks⟩ := res
        obtain ⟨tl, _, hres, hlen⟩ :=
          deriveLoop_scalars prim t s.current_dealers_by_idx s.current_dealers_by_addr
            s.dkg_sk ni maps [] [] (scalars, vks) hloop
        have hscal : scalars = tl := by simpa using hres
        have hnescal : scalars ≠ [] := by
          rw [hscal]
          intro hcontra
          rw [hcontra] at hlen
          exact hne (List.length_eq_zero.1 hlen.symm)
        cases hpar : prim.paramsNew (PUBLIC_ATTRIBUTES + PRIVATE_ATTRIBUTES) with
        | error e => simp
        | ok params =>
          cases hlast : scalars.getLast? with
          | none => exact absurd (List.getLast?_eq_none_iff.1 hlast) hnescal
          | some x => simp [hlast]
  · rintro ⟨p, hp⟩ hni
    obtain ⟨ni, hni'⟩ := Option.isSome_iff_exists.1 hni
    simp [derive_partial_keypair, hni', deriveLoop, hp]

/-- C4 (stage idempotence): each of the three stages returns `Ok`
immediately, with no ledger effects and an unchanged state, when its
completion condition already holds at entry (coconut keypair present,
`voted_vks`, `executed_proposal` respectively); and every successful run
establishes that condition, so invoking a stage twice is observationally
equivalent to invoking it once. -/
theorem C4_stage_idempotence (fprim : DkgPrimitives) (prim : CoconutPrimitives)
    (subClient : SubmissionClient) (valClient : ValidationClient)
    (finClient : FinalizationClient) (s : State) :
    (s.coconut_keypair.isSome →
       verification_key_submission fprim prim subClient s = (s, [], RunResult.ok ()))
    ∧ (s.voted_vks = true →
       verification_key_validation prim valClient s = (s, [], Except.ok ()))
    ∧ (s.executed_proposal = true →
       verification_key_finalization finClient s = (s, [], Except.ok ()))
    ∧ (∀ s1 e1, verification_key_submission fprim prim subClient s = (s1, e1, RunResult.ok ())
        → s1.coconut_keypair.isSome)
    ∧ (∀ s1 e1, verification_key_validation prim valClient s = (s1, e1, Except.ok ())
        → s1.voted_vks = true)
    ∧ (∀ s1 e1, verification_key_finalization finClient s = (s1, e1, Except.ok ())
        → s1.executed_proposal = true) := by
  refine ⟨?_, ?_, ?_, ?_, ?_, ?_⟩
  · intro h
    rw [verification_key_submission, if_pos h]
  · intro h
    rw [verification_key_validation, if_pos h]
  · intro h
    rw [verification_key_finalization, if_pos h]
  · intro s1 e1 h
    simp only [verification_key_submission] at h
    by_cases hkp : s.coconut_keypair.isSome
    · rw [if_pos hkp] at h
      have hs1 := congrArg Prod.fst h
      simp only at hs1
      rw [← hs1]
      exact hkp
    · rw [if_neg hkp] at h
      split at h
      · exact absurd h (by simp)
      · split at h
        · exact absurd h (by simp)
        · split at h
          · exact absurd h (by simp)
          · exact absurd h (by simp)
          · split at h
            · exact absurd h (by simp)
            · split at h
              · exact absurd h (by simp)
              · split at h
                · exact absurd h (by simp)
                · split at h
                  · exact absurd h (by simp)
                  · have hs1 := congrArg Prod.fst h
                    simp only at hs1
                    rw [← hs1]
                    rfl
  · intro s1 e1 h
    rw [verification_key_validation] at h
    by_cases hv : s.voted_vks
    · rw [if_pos hv] at h
      have hs1 := congrArg Prod.fst h
      simp only at hs1
      rw [← hs1]
      exact hv
    · rw [if_neg hv] at h
      split at h
      · exact absurd h (by simp)
      · split at h
        · exact absurd h (by simp)
        · split at h
          · exact absurd h (by simp)
          · have hs1 := congrArg Prod.fst h
            simp only at hs1
            rw [← hs1]
  · intro s1 e1 h
    rw [verification_key_finalization] at h
    by_cases he : s.executed_proposal
    · rw [if_pos he] at h
      have hs1 := congrArg Prod.fst h
      simp only at hs1
      rw [← hs1]
      exact he
    · rw [if_neg he] at h
      split at h
      · exact absurd h (by simp)
      · split at h
        · exact absurd h (by simp)
        · have hs1 := congrArg Prod.fst h
          simp only at hs1
          rw [← hs1]

/-! ### Helper lemmas: peer validation -/

theorem validation_votes (prim : CoconutPrimitives) (client : ValidationClient)
    (s : State) (shares : List ContractVKShare) (proposals : List ProposalResponse)
    (params : Params)
    (hv : s.voted_vks = false)
    (hs : client.sharesResult = Except.ok shares)
    (hp : client.proposalsResult = Except.ok proposals)
    (hparams : prim.paramsNew (PUBLIC_ATTRIBUTES + PRIVATE_ATTRIBUTES) = Except.ok params) :
    verification_key_validation prim client s
      = ({ s with voted_vks := true },
         [Effect.readShares, Effect.readProposals]
           ++ (shares.filterMap (voteDecision prim params
                 (btFromList (proposals.filterMap validate_proposal))
                 (s.current_dealers_by_idx.map (·.1))
                 (transpose_matrix (s.recovered_vks.map (·.recovered_partials))))).map
               (fun v => Effect.vote v.1 v.2),
         Except.ok ()) := by
  rw [verification_key_validation, if_neg (by rw [hv]; exact Bool.false_ne_true)]
  rw [hs, hp]
  simp only [hparams]

/-- C3 (peer-validation voting rule): with `voted_vks` unset and all reads
succeeding, `verification_key_validation` casts exactly the votes given by
`voteDecision` for each fetched share in order, and `voteDecision`
implements the claimed rule: shares whose owner has no `Open` proposal are
ignored; a parse failure votes no; a parsed share votes by
`check_vk_pairing` against the transposed recovered partials at the
owner's position in the surviving-receivers list; a parsed share whose
node index is absent from that list gets no vote. -/
theorem C3_peer_validation_voting (prim : CoconutPrimitives) (client : ValidationClient)
    (s : State) (shares : List ContractVKShare) (proposals : List ProposalResponse)
    (params : Params) (pids : List (Nat × Nat)) (receivers : List NodeIndex)
    (partials : List (List Nat))
    (hv : s.voted_vks = false)
    (hs : client.sharesResult = Except.ok shares)
    (hp : client.proposalsResult = Except.ok proposals)
    (hparams : prim.paramsNew (PUBLIC_ATTRIBUTES + PRIVATE_ATTRIBUTES) = Except.ok params)
    (hpids : pids = btFromList (proposals.filterMap validate_proposal))
    (hreceivers : receivers = s.current_dealers_by_idx.map (·.1))
    (hpartials : partials = transpose_matrix (s.recovered_vks.map (·.recovered_partials))) :
    verification_key_validation prim client s
      = ({ s with voted_vks := true },
         [Effect.readShares, Effect.readProposals]
           ++ (shares.filterMap (voteDecision prim params pids receivers partials)).map
               (fun v => Effect.vote v.1 v.2),
         Except.ok ())
    ∧ ∀ cs ∈ shares,
        (btLookup cs.owner pids = none →
          voteDecision prim params pids receivers partials cs = none)
      ∧ ∀ pid, btLookup cs.owner pids = some pid →
          (prim.tryFromBs58 cs.share = none →
            voteDecision prim params pids receivers partials cs = some (pid, false))
        ∧ ∀ vk, prim.tryFromBs58 cs.share = some vk →
            (receivers.findIdx? (fun ni => cs.node_index == ni) = none →
              voteDecision prim params pids receivers partials cs = none)
          ∧ ∀ i, receivers.findIdx? (fun ni => cs.node_index == ni) = some i →
              voteDecision prim params pids receivers partials cs
                = some (pid, prim.checkVkPairing params (partials.getD i []) vk) := by
  subst hpids hreceivers hpartials
  refine ⟨validation_votes prim client s shares proposals params hv hs hp hparams, ?_⟩
  intro cs _
  refine ⟨?_, ?_⟩
  · intro hnone
    rw [voteDecision, hnone]
  · intro pid hpid
    refine ⟨?_, ?_⟩
    · intro hparse
      rw [voteDecision, hpid, hparse]
    · intro vk hparse
      refine ⟨?_, ?_⟩
      · intro hidx
        rw [voteDecision, hpid, hparse, hidx]
      · intro i hidx
        rw [voteDecision, hpid, hparse, hidx]

/-- C10 (vote-versus-skip asymmetry): for a share whose owner has an
`Open` proposal but whose node index is not among the surviving
receivers, a malformed base58 payload still gets a **no** vote, whereas a
well-formed payload is skipped without any vote. -/
theorem C10_vote_skip_asymmetry (prim : CoconutPrimitives) (client : ValidationClient)
    (s : State) (cs : ContractVKShare) (proposals : List ProposalResponse)
    (params : Params) (pid : Nat)
    (hv : s.voted_vks = false)
    (hs : client.sharesResult = Except.ok [cs])
    (hp : client.proposalsResult = Except.ok proposals)
    (hparams : prim.paramsNew (PUBLIC_ATTRIBUTES + PRIVATE_ATTRIBUTES) = Except.ok params)
    (hopen : btLookup cs.owner (btFromList (proposals.filterMap validate_proposal)) = some pid)
    (habsent : (s.current_dealers_by_idx.map (·.1)).findIdx?
        (fun ni => cs.node_index == ni) = none) :
    (prim.tryFromBs58 cs.share = none →
      (verification_key_validation prim client s).2.1
        = [Effect.readShares, Effect.readProposals, Effect.vote pid false])
    ∧ (∀ vk, prim.tryFromBs58 cs.share = some vk →
      (verification_key_validation prim client s).2.1
        = [Effect.readShares, Effect.readProposals]) := by
  have hrun := validation_votes prim client s [cs] proposals params hv hs hp hparams
  constructor
  · intro hparse
    rw [hrun]
    simp only
    rw [List.filterMap_cons]
    rw [voteDecision, hopen, hparse]
    rfl
  · intro vk hparse
    rw [hrun]
    simp only
    rw [List.filterMap_cons]
    rw [voteDecision, hopen, hparse, habsent]
    rfl

/-! ### Helper lemmas: field preservation through filtering and derivation -/

theorem stateStep_fields (prim : DkgPrimitives) (t : Nat)
    (recv : List (NodeIndex × Nat)) (st : State) (cd : ContractDealing) :
    (stateStep prim t recv st cd).coconut_keypair = st.coconut_keypair
    ∧ (stateStep prim t recv st cd).proposal_id = st.proposal_id := by
  cases hm : dealingMark prim t recv cd <;>
    simp [stateStep, hm, State.mark_bad_dealer]

theorem stateFold_fields (prim : DkgPrimitives) (t : Nat)
    (recv : List (NodeIndex × Nat)) (l : List ContractDealing) :
    ∀ st : State,
    (l.foldl (stateStep prim t recv) st).coconut_keypair = st.coconut_keypair
    ∧ (l.foldl (stateStep prim t recv) st).proposal_id = st.proposal_id := by
  induction l with
  | nil => intro st; exact ⟨rfl, rfl⟩
  | cons cd l ih =>
    intro st
    rw [List.foldl_cons]
    obtain ⟨h1, h2⟩ := ih (stateStep prim t recv st cd)
    obtain ⟨h3, h4⟩ := stateStep_fields prim t recv st cd
    exact ⟨h1.trans h3, h2.trans h4⟩

theorem filterLoop_fields (prim : DkgPrimitives)
    (getD : Nat → Except Unit (List ContractDealing)) (t : Nat)
    (recv : List (NodeIndex × Nat)) (dlrs : List (Addr × NodeIndex)) :
    ∀ (idxs : List Nat) (st : State) (effs : List Effect) (maps : List DealingsMap),
    (filterLoop prim getD t recv dlrs idxs st effs maps).1.coconut_keypair
      = st.coconut_keypair
    ∧ (filterLoop prim getD t recv dlrs idxs st effs maps).1.proposal_id
      = st.proposal_id := by
  intro idxs
  induction idxs with
  | nil => intro st effs maps; exact ⟨rfl, rfl⟩
  | cons i rest ih =>
    intro st effs maps
    rw [filterLoop]
    cases hd : getD i with
    | error e => exact ⟨rfl, rfl⟩
    | ok dealings =>
      simp only
      rw [processFold_eq]
      obtain ⟨h1, h2⟩ := ih (dealings.foldl (stateStep prim t recv) st)
        (effs ++ [Effect.readDealings i])
        (maps ++ [btFromList (dealings.filterMap (dealingEntry prim t recv dlrs))])
      obtain ⟨h3, h4⟩ := stateFold_fields prim t recv dealings st
      exact ⟨h1.trans h3, h2.trans h4⟩

theorem CP_fields (maps : List DealingsMap) (dl : List (Addr × NodeIndex)) :
    ∀ st : State,
    (completenessPass dl maps st).coconut_keypair = st.coconut_keypair
    ∧ (completenessPass dl maps st).proposal_id = st.proposal_id := by
  induction dl with
  | nil => intro st; exact ⟨rfl, rfl⟩
  | cons hd dl ih =>
    intro st
    rw [completenessPass, List.foldl_cons]
    simp only [completenessPass] at ih
    by_cases hc : maps.any (fun m => !(m.any (fun e => e.2.1 == hd.1))) = true
    · rw [if_pos hc]
      obtain ⟨h1, h2⟩ := ih (st.mark_bad_dealer hd.1 ComplaintReason.MissingDealing)
      exact ⟨h1.trans rfl, h2.trans rfl⟩
    · rw [if_neg hc]
      exact ih st

theorem filter_fields (prim : DkgPrimitives)
    (getD : Nat → Except Unit (List ContractDealing)) (s : State) (t : Nat) :
    (deterministic_filter_dealers prim getD s t).1.coconut_keypair = s.coconut_keypair
    ∧ (deterministic_filter_dealers prim getD s t).1.proposal_id = s.proposal_id := by
  rw [deterministic_filter_dealers]
  rcases hfl : filterLoop prim getD t s.current_dealers_by_idx s.current_dealers_by_addr
      (List.range TOTAL_DEALINGS) s [] [] with ⟨stMid, effs0, r⟩
  have hflf := filterLoop_fields prim getD t s.current_dealers_by_idx
    s.current_dealers_by_addr (List.range TOTAL_DEALINGS) s [] []
  rw [hfl] at hflf
  cases r with
  | error e => exact hflf
  | ok ms =>
    simp only
    obtain ⟨h1, h2⟩ := CP_fields ms s.current_dealers_by_addr stMid
    exact ⟨h1.trans hflf.1, h2.trans hflf.2⟩

theorem derive_fields (prim : CoconutPrimitives) (s : State) (t : Nat)
    (maps : List DealingsMap) :
    (derive_partial_keypair prim s t maps).1.coconut_keypair = s.coconut_keypair
    ∧ (derive_partial_keypair prim s t maps).1.proposal_id = s.proposal_id := by
  rw [derive_partial_keypair]
  split
  · exact ⟨rfl, rfl⟩
  · split
    · exact ⟨rfl, rfl⟩
    · split
      · exact ⟨rfl, rfl⟩
      · split
        · exact ⟨rfl, rfl⟩
        · exact ⟨rfl, rfl⟩

/-- C7 (proposal-id extraction and submission atomicity): once the
pipeline reaches the submission step (keypair derived, persisted to disk),
a ledger failure of the submission leaves the coconut keypair and the
proposal id unset; when the submission succeeds, the function fails with a
`ProposalIdError` exactly when the response logs have no "wasm"
`DKG_PROPOSAL_ID` attribute or its value does not parse as `u64`, the
effect trace shows the keypair persisted before the share was submitted,
and on any non-`Ok` outcome the keypair and proposal id remain unset. -/
theorem C7_proposal_id_atomicity (fprim : DkgPrimitives) (prim : CoconutPrimitives)
    (client : SubmissionClient) (s : State) (t : Nat) (st1 st2 : State)
    (effs1 : List Effect) (maps : List DealingsMap) (kp : KeyPair)
    (hkp : s.coconut_keypair = none)
    (hth : s.threshold_value = some t)
    (hfil : deterministic_filter_dealers fprim client.getDealings s t
      = (st1, effs1, Except.ok maps))
    (hder : derive_partial_keypair prim st1 t maps = (st2, RunResult.ok kp))
    (hstore : client.storeResult = Except.ok ()) :
    (client.submitResult (prim.toBs58 kp.vk) = Except.error () →
      (verification_key_submission fprim prim client s).2.2
        = RunResult.error CoconutError.LedgerError
      ∧ (verification_key_submission fprim prim client s).1.coconut_keypair = none
      ∧ (verification_key_submission fprim prim client s).1.proposal_id = s.proposal_id)
    ∧ ∀ logs, client.submitResult (prim.toBs58 kp.vk) = Except.ok logs →
      ((verification_key_submission fprim prim client s).2.1
        = effs1 ++ [Effect.persistKeypair, Effect.submitShare (prim.toBs58 kp.vk)])
      ∧ (((verification_key_submission fprim prim client s).2.2
            = RunResult.error CoconutError.ProposalIdNotFound
          ∨ (verification_key_submission fprim prim client s).2.2
            = RunResult.error CoconutError.ProposalIdNotParsable)
        ↔ (find_attribute logs "wasm" DKG_PROPOSAL_ID = none
          ∨ ∃ v, find_attribute logs "wasm" DKG_PROPOSAL_ID = some v ∧ parseU64 v = none))
      ∧ ((verification_key_submission fprim prim client s).2.2 ≠ RunResult.ok () →
          (verification_key_submission fprim prim client s).1.coconut_keypair = none
          ∧ (verification_key_submission fprim prim client s).1.proposal_id = s.proposal_id) := by
  have hguard : ¬ (s.coconut_keypair.isSome = true) := by
    rw [hkp]
    simp
  have hkp2 : st2.coconut_keypair = none := by
    have h1 : st1.coconut_keypair = s.coconut_keypair := by
      have := (filter_fields fprim client.getDealings s t).1
      rw [hfil] at this
      exact this
    have h2 : st2.coconut_keypair = st1.coconut_keypair := by
      have := (derive_fields prim st1 t maps).1
      rw [hder] at this
      exact this
    rw [h2, h1, hkp]
  have hpid2 : st2.proposal_id = s.proposal_id := by
    have h1 : st1.proposal_id = s.proposal_id := by
      have := (filter_fields fprim client.getDealings s t).2
      rw [hfil] at this
      exact this
    have h2 : st2.proposal_id = st1.proposal_id := by
      have := (derive_fields prim st1 t maps).2
      rw [hder] at this
      exact this
    rw [h2, h1]
  constructor
  · intro hsubf
    simp only [verification_key_submission, if_neg hguard, hth, hfil, hder, hstore, hsubf]
    refine ⟨?_, hkp2, hpid2⟩
    simp
  · intro logs hsub
    simp only [verification_key_submission, if_neg hguard, hth, hfil, hder, hstore, hsub]
    cases hfa : find_attribute logs "wasm" DKG_PROPOSAL_ID with
    | none =>
      dsimp only
      refine ⟨rfl, ?_, ?_⟩
      · simp
      · intro _
        exact ⟨hkp2, hpid2⟩
    | some v =>
      dsimp only
      cases hpu : parseU64 v with
      | none =>
        dsimp only
        refine ⟨rfl, ?_, ?_⟩
        · constructor
          · intro _
            exact Or.inr ⟨v, rfl, hpu⟩
          · intro _
            exact Or.inr rfl
        · intro _
          exact ⟨hkp2, hpid2⟩
      | some pid =>
        dsimp only
        refine ⟨rfl, ?_, ?_⟩
        · constructor
          · rintro (h | h) <;> exact absurd h (by simp)
          · rintro (h | ⟨v', hv', hpu'⟩)
            · exact absurd h (by simp)
            · rw [Option.some.injEq] at hv'
              rw [← hv'] at hpu'
              rw [hpu] at hpu'
              exact absurd hpu' (by simp)
        · intro hne
          exact absurd rfl hne

/-! ### Concrete fixtures used to instantiate the theorems -/

def witPrim : DkgPrimitives where
  tryFromBytes := fun b => if b % 2 == 0 then some ⟨b, b⟩ else none
  verifyDealing := fun d _ _ => d.body % 3 != 1

def witCPrim : CoconutPrimitives where
  recoverInner := fun _ _ _ => Except.ok ⟨[5, 6, 7]⟩
  decryptShare := fun dk ni c => Except.ok (dk + ni + c)
  combineShares := fun shares _ => Except.ok (shares.foldl (· + ·) 0)
  paramsNew := fun n => if n == 0 then Except.error CoconutError.ParamsError else Except.ok n
  verificationKeyOf := fun sk p => sk.x * 1000 + p
  toBs58 := fun vk => vk
  tryFromBs58 := fun n => if n % 2 == 0 then some n else none
  checkVkPairing := fun _ partials vk => partials.headD 0 == vk

def witState : State :=
  ⟨[(⟨1, 10, 0⟩, none), (⟨2, 20, 0⟩, none), (⟨3, 30, 0⟩, none)],
   [], none, none, false, false, some 10, some 2, 7⟩

def witFullMap : DealingsMap := [(10, 1, ⟨6, 6⟩), (20, 2, ⟨6, 6⟩), (30, 3, ⟨6, 6⟩)]

def witReads : List Effect :=
  [Effect.readDealings 0, Effect.readDealings 1, Effect.readDealings 2,
   Effect.readDealings 3, Effect.readDealings 4]

def witKp : KeyPair := ⟨⟨69, [69, 69, 69, 69]⟩, 69004⟩

def witLedgerC1 : Nat → Except Unit (List ContractDealing) :=
  fun i => if i == 0 then Except.ok [⟨2, 6⟩, ⟨3, 6⟩] else Except.ok [⟨1, 6⟩, ⟨2, 6⟩, ⟨3, 6⟩]

def witMapsC1 : List DealingsMap :=
  [[(20, 2, ⟨6, 6⟩), (30, 3, ⟨6, 6⟩)], witFullMap, witFullMap, witFullMap, witFullMap]

theorem C1_witness :
    dealerStatus (deterministic_filter_dealers witPrim witLedgerC1 witState 2).1 1
      = some (some ComplaintReason.MissingDealing) :=
  (C1_cross_polynomial_completeness witPrim witLedgerC1 witState 2
      (deterministic_filter_dealers witPrim witLedgerC1 witState 2).1
      (deterministic_filter_dealers witPrim witLedgerC1 witState 2).2.1
      witMapsC1 rfl 1 (by decide)).1 (by decide)

def witL2 : Nat → List ContractDealing :=
  fun i => if i == 4 then [⟨1, 4⟩, ⟨2, 6⟩, ⟨3, 6⟩] else [⟨1, 6⟩, ⟨2, 6⟩, ⟨3, 6⟩]

def witLedgerC2 : Nat → Except Unit (List ContractDealing) :=
  fun i => Except.ok (witL2 i)

def witCs : Nat → ContractDealing :=
  fun i => if i == 4 then ⟨1, 4⟩ else ⟨1, 6⟩

theorem C2_witness :
    dealerStatus (deterministic_filter_dealers witPrim witLedgerC2 witState 2).1 1
        = some (some ComplaintReason.MissingDealing)
    ∧ dealerStatus (deterministic_filter_dealers witPrim witLedgerC2
          (deterministic_filter_dealers witPrim witLedgerC2 witState 2).1 2).1 1
        = some (some ComplaintReason.DealingVerificationError) :=
  C2_two_pass_complaint_upgrade witPrim witLedgerC2 witState 2 1 witL2 witCs 4
    ComplaintReason.DealingVerificationError
    (fun i _ => rfl) (by decide) (by decide) (by decide) (by decide)
    (by
      intro i hi hne
      refine ⟨⟨6, 6⟩, ?_, fun recv => rfl⟩
      simp [witCs, witPrim, hne])
    (Or.inr ⟨⟨4, 4⟩, rfl, fun recv => rfl, rfl⟩)

def witShare3 : ContractVKShare := ⟨2, 20, 8⟩

def witProps3 : List ProposalResponse := [⟨5, Status.Open, some 2⟩]

def witValClient3 : ValidationClient where
  sharesResult := Except.ok [witShare3]
  proposalsResult := Except.ok witProps3

def witStateVal : State := { witState with recovered_vks := [⟨[11, 12, 13]⟩, ⟨[21, 22, 23]⟩] }

theorem C3_witness :
    verification_key_validation witCPrim witValClient3 witStateVal
      = ({ witStateVal with voted_vks := true },
         [Effect.readShares, Effect.readProposals]
           ++ ([witShare3].filterMap (voteDecision witCPrim 4 [(2, 5)] [10, 20, 30]
                 [[11, 21], [12, 22], [13, 23]])).map (fun v => Effect.vote v.1 v.2),
         Except.ok ()) :=
  (C3_peer_validation_voting witCPrim witValClient3 witStateVal [witShare3] witProps3 4
    [(2, 5)] [10, 20, 30] [[11, 21], [12, 22], [13, 23]]
    rfl rfl rfl rfl (by decide) (by decide) (by decide)).1

def witSubClient7 : SubmissionClient where
  getDealings := fun _ => Except.ok [⟨1, 6⟩, ⟨2, 6⟩, ⟨3, 6⟩]
  storeResult := Except.ok ()
  submitResult := fun _ => Except.ok [("wasm", "proposal_id", "42")]

def witValClient : ValidationClient := ⟨Except.ok [], Except.ok []⟩

def witFinClient : FinalizationClient := ⟨fun _ => Except.ok ()⟩

def witStateDone : State :=
  { witState with
    coconut_keypair := some witKp
    voted_vks := true
    executed_proposal := true
    proposal_id := some 42 }

theorem C4_witness :
    verification_key_submission witPrim witCPrim witSubClient7 witStateDone
        = (witStateDone, [], RunResult.ok ())
    ∧ verification_key_validation witCPrim witValClient witStateDone
        = (witStateDone, [], Except.ok ())
    ∧ verification_key_finalization witFinClient witStateDone
        = (witStateDone, [], Except.ok ()) :=
  ⟨(C4_stage_idempotence witPrim witCPrim witSubClient7 witValClient witFinClient
      witStateDone).1 (by decide),
   (C4_stage_idempotence witPrim witCPrim witSubClient7 witValClient witFinClient
      witStateDone).2.1 (by decide),
   (C4_stage_idempotence witPrim witCPrim witSubClient7 witValClient witFinClient
      witStateDone).2.2.1 (by decide)⟩

theorem C5_witness :
    (derive_partial_keypair witCPrim witState 5 ([(10, 1, ⟨6, 6⟩)] :: [])).2
      = RunResult.error CoconutError.ThresholdUnavailable :=
  C5_threshold_unavailable witCPrim witState 5 [(10, 1, ⟨6, 6⟩)] []
    (by decide) (by decide) (by decide)

def witMaps2 : List DealingsMap := [witFullMap, witFullMap]

def witSt6 : State := { witState with recovered_vks := [⟨[5, 6, 7]⟩, ⟨[5, 6, 7]⟩] }

def witKp6 : KeyPair := ⟨⟨69, [69]⟩, 69004⟩

theorem C6_witness :
    ∃ ni, witState.receiver_index = some ni
      ∧ ∃ scalars, witMaps2.mapM (scalarOfMap witCPrim 2 witState.current_dealers_by_idx
          witState.current_dealers_by_addr witState.dkg_sk ni) = Except.ok scalars
        ∧ scalars.getLast? = some witKp6.sk.x
        ∧ witKp6.sk.ys = scalars.dropLast :=
  C6_secret_assembly witCPrim witState 2 witMaps2 witSt6 witKp6 (by decide)

def witMaps7 : List DealingsMap :=
  [witFullMap, witFullMap, witFullMap, witFullMap, witFullMap]

def witSt2 : State :=
  { witState with recovered_vks :=
      [⟨[5, 6, 7]⟩, ⟨[5, 6, 7]⟩, ⟨[5, 6, 7]⟩, ⟨[5, 6, 7]⟩, ⟨[5, 6, 7]⟩] }

theorem C7_witness :
    (verification_key_submission witPrim witCPrim witSubClient7 witState).2.1
      = witReads ++ [Effect.persistKeypair, Effect.submitShare (witCPrim.toBs58 witKp.vk)] :=
  ((C7_proposal_id_atomicity witPrim witCPrim witSubClient7 witState 2 witState witSt2
      witReads witMaps7 witKp (by decide) (by decide) rfl (by decide) rfl).2
    [("wasm", "proposal_id", "42")] rfl).1

theorem C9_witness :
    (derive_partial_keypair witCPrim witState 2 [witFullMap]).2 ≠ RunResult.panic
    ∧ (derive_partial_keypair witCPrim witState 2 []).2 = RunResult.panic :=
  ⟨(C9_pop_unwrap witCPrim witState 2).1 [witFullMap] (by decide),
   (C9_pop_unwrap witCPrim witState 2).2 ⟨4, rfl⟩ (by decide)⟩

def witShare10 : ContractVKShare := ⟨2, 99, 9⟩

def witValClient10 : ValidationClient := ⟨Except.ok [witShare10], Except.ok witProps3⟩

theorem C10_witness :
    (verification_key_validation witCPrim witValClient10 witState).2.1
      = [Effect.readShares, Effect.readProposals, Effect.vote 5 false] :=
  (C10_vote_skip_asymmetry witCPrim witValClient10 witState witShare10 witProps3 4 5
    (by decide) rfl rfl rfl (by decide) (by decide)).1 (by decide)

/-! ### Helper lemmas: permutation invariance of the filter -/

theorem mark_comm (s : State) (a a' : Addr) (r r' : ComplaintReason) (hne : a ≠ a') :
    (s.mark_bad_dealer a r).mark_bad_dealer a' r'
      = (s.mark_bad_dealer a' r').mark_bad_dealer a r := by
  simp only [State.mark_bad_dealer, List.map_map]
  congr 1
  apply List.map_congr_left
  intro e _
  by_cases h1 : e.1.addr = a
  · by_cases h2 : e.1.addr = a'
    · exact absurd (h1.symm.trans h2) hne
    · simp [Function.comp, h1, h2, hne, Ne.symm hne]
  · by_cases h2 : e.1.addr = a' <;> simp [Function.comp, h1, h2, hne, Ne.symm hne]

theorem stateStep_comm (prim : DkgPrimitives) (t : Nat) (recv : List (NodeIndex × Nat))
    (cd cd' : ContractDealing) (hne : cd.dealer ≠ cd'.dealer) (st : State) :
    stateStep prim t recv (stateStep prim t recv st cd) cd'
      = stateStep prim t recv (stateStep prim t recv st cd') cd := by
  cases hm : dealingMark prim t recv cd with
  | none => cases hm' : dealingMark prim t recv cd' <;> simp [stateStep, hm, hm']
  | some r =>
    cases hm' : dealingMark prim t recv cd' with
    | none => simp [stateStep, hm, hm']
    | some r' =>
      simp only [stateStep, hm, hm']
      exact mark_comm st cd.dealer cd'.dealer r r' hne

theorem stateFold_perm (prim : DkgPrimitives) (t : Nat) (recv : List (NodeIndex × Nat))
    (l1 l2 : List ContractDealing) (hperm : l1.Perm l2)
    (hnodup : (l1.map (fun cd => cd.dealer)).Nodup) (st : State) :
    l1.foldl (stateStep prim t recv) st = l2.foldl (stateStep prim t recv) st := by
  apply List.Perm.foldl_eq' hperm _ st
  intro x hx y hy z
  by_cases hxy : x = y
  · rw [hxy]
  · have hd : x.dealer ≠ y.dealer := by
      intro hcontra
      exact hxy (List.inj_on_of_nodup_map hnodup hx hy hcontra)
    exact stateStep_comm prim t recv x y hd z

theorem btInsert_perm_cons {α : Type} (k : Nat) (v : α) :
    ∀ m : List (Nat × α), (∀ p ∈ m, p.1 ≠ k) →
    (btInsert k v m).Perm ((k, v) :: m) := by
  intro m
  induction m with
  | nil => intro _; exact List.Perm.refl _
  | cons x rest ih =>
    intro hk
    rw [btInsert]
    by_cases h1 : k < x.1
    · rw [if_pos h1]
    · rw [if_neg h1]
      by_cases h2 : k = x.1
      · exact absurd h2.symm (hk x (List.mem_cons_self _ _))
      · rw [if_neg h2]
        exact (List.Perm.cons x (ih (fun p hp => hk p (List.mem_cons_of_mem _ hp)))).trans
          (List.Perm.swap (k, v) x rest)

theorem btFromList_perm_self {α : Type} :
    ∀ (l acc : List (Nat × α)),
    (l.map Prod.fst).Nodup → (∀ p ∈ l, ∀ q ∈ acc, p.1 ≠ q.1) →
    (l.foldl (fun m kv => btInsert kv.1 kv.2 m) acc).Perm (acc ++ l) := by
  intro l
  induction l with
  | nil =>
    intro acc _ _
    rw [List.append_nil]
    exact List.Perm.refl _
  | cons x rest ih =>
    intro acc hnodup hdisj
    rw [List.map_cons, List.nodup_cons] at hnodup
    rw [List.foldl_cons]
    have hx : ∀ p ∈ acc, p.1 ≠ x.1 := by
      intro p hp
      intro hcontra
      exact hdisj x (List.mem_cons_self _ _) p hp hcontra.symm
    have hins : (btInsert x.1 x.2 acc).Perm (x :: acc) := by
      have := btInsert_perm_cons x.1 x.2 acc hx
      simpa using this
    have hdisj' : ∀ p ∈ rest, ∀ q ∈ btInsert x.1 x.2 acc, p.1 ≠ q.1 := by
      intro p hp q hq
      have hq' : q ∈ x :: acc := hins.mem_iff.1 hq
      rcases List.mem_cons.1 hq' with rfl | hq''
      · intro hcontra
        exact hnodup.1 (hcontra ▸ List.mem_map_of_mem _ hp)
      · exact hdisj p (List.mem_cons_of_mem _ hp) q hq''
    have h1 := ih (btInsert x.1 x.2 acc) hnodup.2 hdisj'
    have h2 : (btInsert x.1 x.2 acc ++ rest).Perm (x :: (acc ++ rest)) :=
      hins.append_right rest
    exact (h1.trans h2).trans List.perm_middle.symm

theorem btFromList_perm {α : Type} (l : List (Nat × α))
    (hnodup : (l.map Prod.fst).Nodup) : (btFromList l).Perm l := by
  have := btFromList_perm_self l [] hnodup (by intro p _ q hq; simp at hq)
  simpa [btFromList] using this

theorem btInsert_sorted {α : Type} (k : Nat) (v : α) :
    ∀ m : List (Nat × α), m.Pairwise (fun p q => p.1 < q.1) →
    (btInsert k v m).Pairwise (fun p q => p.1 < q.1) := by
  intro m
  induction m with
  | nil => intro _; simp [btInsert]
  | cons x rest ih =>
    intro hsorted
    rw [List.pairwise_cons] at hsorted
    rw [btInsert]
    by_cases h1 : k < x.1
    · rw [if_pos h1]
      rw [List.pairwise_cons]
      constructor
      · intro b hb
        rcases List.mem_cons.1 hb with rfl | hb'
        · exact h1
        · exact Nat.lt_trans h1 (hsorted.1 b hb')
      · rw [List.pairwise_cons]
        exact hsorted
    · rw [if_neg h1]
      by_cases h2 : k = x.1
      · rw [if_pos h2]
        rw [List.pairwise_cons]
        constructor
        · intro b hb
          rw [h2]
          exact hsorted.1 b hb
        · exact hsorted.2
      · rw [if_neg h2]
        rw [List.pairwise_cons]
        constructor
        · intro b hb
          rcases mem_btInsert k v b rest hb with rfl | hb'
          · exact Nat.lt_of_le_of_ne (Nat.le_of_not_lt h1) (fun h => h2 h.symm)
          · exact hsorted.1 b hb'
        · exact ih hsorted.2

theorem btFromList_sorted {α : Type} (l : List (Nat × α)) :
    (btFromList l).Pairwise (fun p q => p.1 < q.1) := by
  have aux : ∀ (l acc : List (Nat × α)), acc.Pairwise (fun p q => p.1 < q.1) →
      (l.foldl (fun m kv => btInsert kv.1 kv.2 m) acc).Pairwise (fun p q => p.1 < q.1) := by
    intro l
    induction l with
    | nil => intro acc h; exact h
    | cons x rest ih =>
      intro acc h
      rw [List.foldl_cons]
      exact ih _ (btInsert_sorted x.1 x.2 acc h)
  exact aux l [] (by simp)

theorem btFromList_perm_eq {α : Type} (l1 l2 : List (Nat × α))
    (hperm : l1.Perm l2) (hnodup : (l1.map Prod.fst).Nodup) :
    btFromList l1 = btFromList l2 := by
  have hanti : IsAntisymm (Nat × α) (fun p q => p.1 < q.1) :=
    ⟨fun a b h1 h2 => absurd (Nat.lt_trans h1 h2) (Nat.lt_irrefl _)⟩
  have hnodup2 : (l2.map Prod.fst).Nodup :=
    (hperm.map Prod.fst).nodup hnodup
  have hs1 : List.Sorted (fun p q : Nat × α => p.1 < q.1) (btFromList l1) :=
    btFromList_sorted l1
  have hs2 : List.Sorted (fun p q : Nat × α => p.1 < q.1) (btFromList l2) :=
    btFromList_sorted l2
  exact @List.eq_of_perm_of_sorted _ (fun p q => p.1 < q.1) hanti _ _
    (((btFromList_perm l1 hnodup).trans hperm).trans (btFromList_perm l2 hnodup2).symm)
    hs1 hs2

theorem dealingEntry_key (prim : DkgPrimitives) (t : Nat)
    (recv : List (NodeIndex × Nat)) (dlrs : List (Addr × NodeIndex))
    (cd : ContractDealing) (e : NodeIndex × Addr × Dealing)
    (h : dealingEntry prim t recv dlrs cd = some e) :
    btLookup cd.dealer dlrs = some e.1 := by
  rw [dealingEntry] at h
  cases hp : prim.tryFromBytes cd.dealing with
  | none => rw [hp] at h; simp at h
  | some d =>
    rw [hp] at h
    by_cases hv : prim.verifyDealing d t recv
    · simp only [hv, Bool.not_true, Bool.false_eq_true, if_false] at h
      cases hl : btLookup cd.dealer dlrs with
      | none => rw [hl] at h; simp at h
      | some idx =>
        rw [hl] at h
        simp only [Option.map_some', Option.some.injEq] at h
        rw [← h]
    · simp [hv] at h

theorem btLookup_mem {α : Type} (k : Nat) (l : List (Nat × α)) (v : α)
    (h : btLookup k l = some v) : (k, v) ∈ l := by
  rw [btLookup] at h
  cases hf : l.find? (fun kv => kv.1 == k) with
  | none => rw [hf] at h; simp at h
  | some kv =>
    rw [hf] at h
    have hk : kv.1 = k := by simpa using List.find?_some hf
    have hv : kv.2 = v := by simpa using h
    have : kv ∈ l := List.mem_of_find?_eq_some hf
    rwa [← hk, ← hv]

theorem entries_keys_nodup (prim : DkgPrimitives) (t : Nat)
    (recv : List (NodeIndex × Nat)) (dlrs : List (Addr × NodeIndex))
    (hval : (dlrs.map Prod.snd).Nodup) :
    ∀ l : List ContractDealing, (l.map (fun cd => cd.dealer)).Nodup →
    ((l.filterMap (dealingEntry prim t recv dlrs)).map Prod.fst).Nodup := by
  intro l
  induction l with
  | nil => intro _; simp
  | cons cd rest ih =>
    intro hnodup
    rw [List.map_cons, List.nodup_cons] at hnodup
    rw [List.filterMap_cons]
    cases he : dealingEntry prim t recv dlrs cd with
    | none => exact ih hnodup.2
    | some e =>
      rw [List.map_cons, List.nodup_cons]
      refine ⟨?_, ih hnodup.2⟩
      intro hmem
      obtain ⟨e', he'mem, he'key⟩ := List.mem_map.1 hmem
      obtain ⟨cd', hcd'mem, hcd'e⟩ := List.mem_filterMap.1 he'mem
      have hk1 : btLookup cd.dealer dlrs = some e.1 :=
        dealingEntry_key prim t recv dlrs cd e he
      have hk2 : btLookup cd'.dealer dlrs = some e'.1 :=
        dealingEntry_key prim t recv dlrs cd' e' hcd'e
      rw [he'key] at hk2
      have hm1 : (cd.dealer, e.1) ∈ dlrs := btLookup_mem _ _ _ hk1
      have hm2 : (cd'.dealer, e.1) ∈ dlrs := btLookup_mem _ _ _ hk2
      have heq : (cd.dealer, e.1) = (cd'.dealer, e.1) :=
        List.inj_on_of_nodup_map hval hm1 hm2 rfl
      have : cd.dealer = cd'.dealer := congrArg Prod.fst heq
      exact hnodup.1 (this ▸ List.mem_map_of_mem _ hcd'mem)

theorem foldl_congr_on {α β : Type} (f g : β → α → β) :
    ∀ l : List α, (∀ a ∈ l, ∀ b, f b a = g b a) → ∀ b, l.foldl f b = l.foldl g b := by
  intro l
  induction l with
  | nil => intro _ b; rfl
  | cons x rest ih =>
    intro h b
    rw [List.foldl_cons, List.foldl_cons, h x (List.mem_cons_self _ _)]
    exact ih (fun a ha b => h a (List.mem_cons_of_mem _ ha) b) _

instance {ε α : Type} [DecidableEq ε] [DecidableEq α] : DecidableEq (Except ε α) :=
  fun a b =>
  match a, b with
  | Except.error e1, Except.error e2 =>
    if h : e1 = e2 then isTrue (by rw [h])
    else isFalse (by intro hc; injection hc; contradiction)
  | Except.error _, Except.ok _ => isFalse (fun hc => Except.noConfusion hc)
  | Except.ok _, Except.error _ => isFalse (fun hc => Except.noConfusion hc)
  | Except.ok a1, Except.ok a2 =>
    if h : a1 = a2 then isTrue (by rw [h])
    else isFalse (by intro hc; injection hc; contradiction)

instance : DecidableEq (Except Unit (List DealingsMap)) := inferInstance

instance : DecidableEq (List Effect × Except Unit (List DealingsMap)) := inferInstance

instance : DecidableEq (State × List Effect × Except Unit (List DealingsMap)) := inferInstance

def cexA : Nat → Except Unit (List ContractDealing) :=
  fun i => if i == 0 then Except.ok [⟨1, 2⟩, ⟨1, 6⟩] else Except.ok [⟨1, 6⟩]

def cexB : Nat → Except Unit (List ContractDealing) :=
  fun i => if i == 0 then Except.ok [⟨1, 6⟩, ⟨1, 2⟩] else cexA i

/-- C8 counterexample: with equal states and ledgers returning the same
multiset of dealings at every polynomial index — a dealer posting the
same two valid dealings at index 0, in the two orders — the two runs of
`deterministic_filter_dealers` produce different outputs (the `BTreeMap`
keeps the last posting for a duplicated key). -/
theorem C8_counterexample :
    ([(⟨1, 2⟩ : ContractDealing), ⟨1, 6⟩]).Perm [⟨1, 6⟩, ⟨1, 2⟩]
    ∧ deterministic_filter_dealers witPrim cexA witState 2
        ≠ deterministic_filter_dealers witPrim cexB witState 2 := by
  constructor
  · decide
  · decide

/-- The list a ledger read returned, or `[]` on a ledger error. -/
def okOrNil (x : Except Unit (List ContractDealing)) : List ContractDealing :=
  match x with
  | Except.ok l => l
  | Except.error _ => []

/-- C8 amended (filter determinism over per-index multisets): two runs of
`deterministic_filter_dealers` from equal states, with the ledger
returning at every polynomial index the same multiset of dealings — in
possibly different orders — in which **each dealer posts at most once per
index**, and with the registered dealers holding pairwise-distinct node
indices, produce identical outputs (states, effects and maps); no clock,
randomness, or peer observation enters the model, which is a pure
function of the state and the ledger. -/
theorem C8_filter_multiset_determinism (prim : DkgPrimitives)
    (getD1 getD2 : Nat → Except Unit (List ContractDealing)) (s : State) (t : Nat)
    (hval : (s.current_dealers_by_addr.map Prod.snd).Nodup)
    (h : ∀ i, i < TOTAL_DEALINGS → ∃ l1 l2, getD1 i = Except.ok l1 ∧ getD2 i = Except.ok l2
      ∧ l1.Perm l2 ∧ (l1.map (fun cd => cd.dealer)).Nodup) :
    deterministic_filter_dealers prim getD1 s t
      = deterministic_filter_dealers prim getD2 s t := by
  have hgetD1 : ∀ i ∈ List.range TOTAL_DEALINGS, getD1 i = Except.ok (okOrNil (getD1 i)) := by
    intro i hi
    obtain ⟨l1, _, h1, _, _, _⟩ := h i (List.mem_range.1 hi)
    rw [h1]
    rfl
  have hgetD2 : ∀ i ∈ List.range TOTAL_DEALINGS, getD2 i = Except.ok (okOrNil (getD2 i)) := by
    intro i hi
    obtain ⟨_, l2, _, h2, _, _⟩ := h i (List.mem_range.1 hi)
    rw [h2]
    rfl
  have hfacts : ∀ i, i < TOTAL_DEALINGS →
      (okOrNil (getD1 i)).Perm (okOrNil (getD2 i))
      ∧ ((okOrNil (getD1 i)).map (fun cd => cd.dealer)).Nodup := by
    intro i hi
    obtain ⟨l1, l2, h1, h2, hperm, hnodup⟩ := h i hi
    rw [h1, h2]
    exact ⟨hperm, hnodup⟩
  rw [filter_all_ok prim getD1 s t (fun i => okOrNil (getD1 i)) hgetD1,
    filter_all_ok prim getD2 s t (fun i => okOrNil (getD2 i)) hgetD2]
  have hmapsEq : (List.range TOTAL_DEALINGS).map (fun i =>
        btFromList ((okOrNil (getD1 i)).filterMap
          (dealingEntry prim t s.current_dealers_by_idx s.current_dealers_by_addr)))
      = (List.range TOTAL_DEALINGS).map (fun i =>
        btFromList ((okOrNil (getD2 i)).filterMap
          (dealingEntry prim t s.current_dealers_by_idx s.current_dealers_by_addr))) := by
    apply List.map_congr_left
    intro i hi
    obtain ⟨hperm, hnodup⟩ := hfacts i (List.mem_range.1 hi)
    apply btFromList_perm_eq
    · exact List.Perm.filterMap _ hperm
    · exact entries_keys_nodup prim t s.current_dealers_by_idx s.current_dealers_by_addr
        hval _ hnodup
  have hfoldEq : (List.range TOTAL_DEALINGS).foldl (fun st i =>
        (okOrNil (getD1 i)).foldl (stateStep prim t s.current_dealers_by_idx) st) s
      = (List.range TOTAL_DEALINGS).foldl (fun st i =>
        (okOrNil (getD2 i)).foldl (stateStep prim t s.current_dealers_by_idx) st) s := by
    apply foldl_congr_on
    intro i hi st
    obtain ⟨hperm, hnodup⟩ := hfacts i (List.mem_range.1 hi)
    exact stateFold_perm prim t s.current_dealers_by_idx _ _ hperm hnodup st
  rw [hmapsEq, hfoldEq]

def cexC : Nat → Except Unit (List ContractDealing) :=
  fun _ => Except.ok [⟨1, 6⟩, ⟨2, 6⟩]

def cexD : Nat → Except Unit (List ContractDealing) :=
  fun _ => Except.ok [⟨2, 6⟩, ⟨1, 6⟩]

theorem C8_witness :
    deterministic_filter_dealers witPrim cexC witState 2
      = deterministic_filter_dealers witPrim cexD witState 2 :=
  C8_filter_multiset_determinism witPrim cexC cexD witState 2 (by decide)
    (fun i _ => ⟨[⟨1, 6⟩, ⟨2, 6⟩], [⟨2, 6⟩, ⟨1, 6⟩], rfl, rfl, by decide, by decide⟩)

end NymDkg
